import Mathlib

/-!
# Verification of the JHipster generator-base writing pipeline

This file embeds, as executable Lean definitions, the parts of
`src/generators/base/generator-base.mjs` and
`src/generators/angular/needle-api/needle-client-angular.mts` that the
frozen claims are about:

* the lodash string helpers `_.camelCase` / `_.upperFirst` used by
  `upperFirstCamelCase` and `getFrontendAppName` (modelled for ASCII
  input: lodash's contraction, ordinal and emoji word rules and its
  non-ASCII letter categories are outside the scope of the claims);
* the `addIcon` needle text transform (a JavaScript global regex
  replace over the file content);
* the `writeFiles` pipeline: spec validation, section/block planning,
  transform-chain merging, override skipping, binary/ejs inference,
  template-root resolution and its diagnostics, and entity faker
  reseeding.  Filesystem effects are represented by an existence oracle
  and an explicit action trace.

Strings on the lodash / needle side are modelled as `List Char`; paths
in the `writeFiles` model are Lean `String`s joined with `/` (node's
path normalisation is not relevant to any claim).
-/

set_option autoImplicit false

namespace JH

/-! ## ASCII character classes (as used by the JavaScript regexes) -/

/-- `[a-z]` -/
def isLowerAZ (c : Char) : Bool := 97 ≤ c.toNat && c.toNat ≤ 122

/-- `[A-Z]` -/
def isUpperAZ (c : Char) : Bool := 65 ≤ c.toNat && c.toNat ≤ 90

/-- `[0-9]`, JavaScript `\d` -/
def isDigitC (c : Char) : Bool := 48 ≤ c.toNat && c.toNat ≤ 57

/-- `[a-zA-Z]` -/
def isLetterAZ (c : Char) : Bool := isLowerAZ c || isUpperAZ c

/-- `[a-zA-Z0-9]` -/
def isAlnumC (c : Char) : Bool := isLetterAZ c || isDigitC c

/-- `String.prototype.toLowerCase` on one ASCII character. -/
def toLowerC (c : Char) : Char :=
  if isUpperAZ c then Char.ofNat (c.toNat + 32) else c

/-- `String.prototype.toUpperCase` on one ASCII character
(`_.upperFirst` applies it to the first character only). -/
def toUpperC (c : Char) : Char :=
  if isLowerAZ c then Char.ofNat (c.toNat - 32) else c

/-- Lowercase a whole word, `word.toLowerCase()`. -/
def lowerL (w : List Char) : List Char := w.map toLowerC

/-- `_.upperFirst`. -/
def upperFirstL : List Char → List Char
  | [] => []
  | c :: t => toUpperC c :: t

/-! ## lodash `words`

`_.words(s)` uses `unicodeWords(s)` when `hasUnicodeWord(s)` and
`asciiWords(s)` otherwise.  `hasUnicodeWord` is the regex test
`/[a-z][A-Z]|[A-Z]{2}[a-z]|[0-9][a-zA-Z]|[a-zA-Z][0-9]|[^a-zA-Z0-9 ]/`. -/

def hasUnicodeWord : List Char → Bool
  | [] => false
  | c :: t =>
    (!(isAlnumC c || c == ' ')) ||
    (match t with
     | [] => false
     | d :: t2 =>
       (isLowerAZ c && isUpperAZ d) ||
       (isDigitC c && isLetterAZ d) ||
       (isLetterAZ c && isDigitC d) ||
       (isUpperAZ c && isUpperAZ d &&
         (match t2 with | e :: _ => isLowerAZ e | [] => false))) ||
    hasUnicodeWord t

/-- Word characters of lodash's `reAsciiWord`
`/[^\x00-\x2f\x3a-\x40\x5b-\x60\x7b-\x7f]+/g`. -/
def asciiWordChar (c : Char) : Bool :=
  let n := c.toNat
  !(n ≤ 0x2f || (0x3a ≤ n && n ≤ 0x40) || (0x5b ≤ n && n ≤ 0x60) ||
    (0x7b ≤ n && n ≤ 0x7f))

theorem length_dropWhile_le' {α : Type} (p : α → Bool) :
    ∀ l : List α, (l.dropWhile p).length ≤ l.length
  | [] => Nat.le_refl _
  | c :: t => by
    rw [List.dropWhile_cons]
    split
    · exact Nat.le_succ_of_le (length_dropWhile_le' p t)
    · exact Nat.le_refl _

/-- `asciiWords`: maximal runs of `asciiWordChar`. -/
def asciiWords : List Char → List (List Char)
  | [] => []
  | c :: t =>
    if asciiWordChar c then
      (c :: t.takeWhile asciiWordChar) :: asciiWords (t.dropWhile asciiWordChar)
    else
      asciiWords t
termination_by l => l.length
decreasing_by
  · simp only [List.length_cons]
    exact Nat.lt_succ_of_le (length_dropWhile_le' _ _)
  · simp

/-- Length of the word matched by lodash's `reUnicodeWord` at the head of
the input, `0` when no word starts here.  For ASCII input the relevant
alternatives of the regex reduce to: an optional capital followed by a
maximal lowercase run; a maximal capital run that gives back its last
letter when a lowercase letter follows (acronym rule); a maximal digit
run. -/
def uniTokenLen : List Char → Nat
  | [] => 0
  | c :: t =>
    if isLowerAZ c then 1 + (t.takeWhile isLowerAZ).length
    else if isUpperAZ c then
      let k := 1 + (t.takeWhile isUpperAZ).length
      match t.drop (k - 1) with
      | d :: _ =>
        if isLowerAZ d then
          if k = 1 then 1 + (t.takeWhile isLowerAZ).length else k - 1
        else k
      | [] => k
    else if isDigitC c then 1 + (t.takeWhile isDigitC).length
    else 0

theorem uniTokenLen_nil : uniTokenLen [] = 0 := rfl

/-- `unicodeWords` (restricted to the ASCII alternatives): scan the
input, at each position either emit the word matched there or skip one
character. -/
def uniWords (l : List Char) : List (List Char) :=
  match h : uniTokenLen l with
  | 0 =>
    match l with
    | [] => []
    | _ :: t => uniWords t
  | n + 1 => l.take (n + 1) :: uniWords (l.drop (n + 1))
termination_by l.length
decreasing_by
  · simp
  · have hl : l ≠ [] := by
      intro he; rw [he, uniTokenLen_nil] at h; exact Nat.succ_ne_zero n h.symm
    have : 0 < l.length := List.length_pos.mpr hl
    simp only [List.length_drop]
    omega

/-- `_.words` with no explicit pattern. -/
def lodashWords (l : List Char) : List (List Char) :=
  if hasUnicodeWord l then uniWords l else asciiWords l

/-- One camel-case compound step for a non-initial word:
`capitalize(word.toLowerCase())`. -/
def capWord (w : List Char) : List Char := upperFirstL (lowerL w)

/-- `_.camelCase`. -/
def camelCaseL (l : List Char) : List Char :=
  match lodashWords l with
  | [] => []
  | w :: ws => lowerL w ++ (ws.map capWord).flatten

/-- `upperFirstCamelCase(value)` from `generator-base.mjs`:
`_.upperFirst(_.camelCase(value))`. -/
def upperFirstCamelCase (l : List Char) : List Char :=
  upperFirstL (camelCaseL l)

/-! ## `getFrontendAppName` -/

/-- The literal `'App'`. -/
def appSuffix : List Char := ['A', 'p', 'p']

/-- `getFrontendAppName(baseName)` from `generator-base.mjs`:
`name = _.camelCase(baseName) + (baseName.endsWith('App') ? '' : 'App');`
`return name.match(/^\d/) ? 'App' : name;`. -/
def getFrontendAppName (b : List Char) : List Char :=
  let name := camelCaseL b ++ (if appSuffix.isSuffixOf b then [] else appSuffix)
  if (match name with | c :: _ => isDigitC c | [] => false) then appSuffix
  else name

/-- Build a space-separated input from a list of words (used to state
the amended idempotence property of `upperFirstCamelCase`). -/
def joinSpaces : List (List Char) → List Char
  | [] => []
  | [w] => w
  | w :: ws => w ++ ' ' :: joinSpaces ws

/-! ## The `addIcon` needle transform

`needle-client-angular.mts`, `addIcon`: the `contentToAdd` callback is

```
(content, { indentPrefix }) =>
  content.replace(
    /(\r?\n)(\s*)\/\/ jhipster-needle-add-icon-import/g,
    `\n<indent><iconImport>,\n<indent>// jhipster-needle-add-icon-import`)
```

A JavaScript global replace scans left to right; at each position it
either matches the whole regex (a newline, a maximal whitespace run,
then the literal sentinel) and continues after the match, or moves on
by one character.  The replacement text uses the single
callback-supplied indent string for every occurrence; the captured
groups are not used. -/

/-- JavaScript `\s` (ASCII part: tab, LF, VT, FF, CR, space). -/
def isJsWS (c : Char) : Bool :=
  (9 ≤ c.toNat && c.toNat ≤ 13) || c.toNat = 32

/-- The sentinel `// jhipster-needle-add-icon-import`. -/
def iconNeedle : List Char := "// jhipster-needle-add-icon-import".data

/-- After the newline of a candidate match: drop the (maximal) `\s*`
run and require the literal sentinel; return the rest of the input
after the whole match.  `none` when the regex does not match here. -/
def needleTail (t : List Char) : Option (List Char) :=
  let r := t.dropWhile isJsWS
  if iconNeedle.isPrefixOf r then some (r.drop iconNeedle.length) else none

/-- The replacement text of the `addIcon` replace call: a newline, the
callback-supplied indent string `indent`, the icon-import name `imp`, a
comma, a newline, `indent` again, and the re-emitted sentinel. -/
def iconRepl (indent imp : List Char) : List Char :=
  '\n' :: indent ++ imp ++ ',' :: '\n' :: indent ++ iconNeedle

theorem needleTail_length {t r : List Char} (h : needleTail t = some r) :
    r.length ≤ t.length := by
  simp only [needleTail] at h
  split at h
  · injection h with h
    subst h
    rw [List.length_drop]
    exact Nat.le_trans (Nat.sub_le _ _) (length_dropWhile_le' _ _)
  · cases h

/-- `addIcon`'s text transform: the global regex replace over the file
content. -/
def addIconReplace (indent imp : List Char) : List Char → List Char
  | [] => []
  | '\r' :: '\n' :: t =>
    match h : needleTail t with
    | some rest => iconRepl indent imp ++ addIconReplace indent imp rest
    | none => '\r' :: addIconReplace indent imp ('\n' :: t)
  | '\n' :: t =>
    match h : needleTail t with
    | some rest => iconRepl indent imp ++ addIconReplace indent imp rest
    | none => '\n' :: addIconReplace indent imp t
  | c :: t => c :: addIconReplace indent imp t
termination_by l => l.length
decreasing_by
  · simp only [List.length_cons]
    exact Nat.lt_succ_of_le (Nat.le_succ_of_le (needleTail_length h))
  · simp
  · simp only [List.length_cons]
    exact Nat.lt_succ_of_le (needleTail_length h)
  · simp
  · simp

/-! ## Path helpers for the `writeFiles` model

`path.join` is modelled as joining with `/` (normalisation of `.` and
duplicate separators does not matter to any claim); `destinationPath`
prepends the generator's destination root. -/

def pjoin (a b : String) : String := a ++ "/" ++ b

/-- `this.destinationPath(a)` (one argument). -/
def destPath1 (destRoot a : String) : String := pjoin destRoot a

/-- `this.destinationPath(a, b)` (two arguments). -/
def destPath2 (destRoot a b : String) : String := pjoin destRoot (pjoin a b)

/-- Node `path.extname` on the characters of a path: the suffix of the
basename from its last `.`, empty when there is no dot or the only dot
is the basename's first character. -/
def extnameL (l : List Char) : List Char :=
  let base := (l.reverse.takeWhile (fun c => c ≠ '/')).reverse
  let afterDot := base.reverse.takeWhile (fun c => c ≠ '.')
  if afterDot.length + 1 < base.length then '.' :: afterDot.reverse
  else []

def extname (s : String) : String := String.mk (extnameL s.data)

/-- Node `path.basename`. -/
def pbasename (s : String) : String :=
  String.mk ((s.data.reverse.takeWhile (fun c => c ≠ '/')).reverse)

/-- JavaScript `str.replace(pat, '')` with a plain-string pattern:
remove the first occurrence of `pat`. -/
def removeFirst (pat : List Char) : List Char → List Char
  | [] => []
  | c :: t => if pat.isPrefixOf (c :: t) then (c :: t).drop pat.length
              else c :: removeFirst pat t

/-- `normalizeEjs = file => file.replace('.ejs', '')`. -/
def normalizeEjs (s : String) : String :=
  String.mk (removeFirst ".ejs".data s.data)

/-! ## `writeFiles`: data model

Callbacks (`resolveCallback`) are modelled by their resolved values;
`undefined` fields are `none`.  A `transform` property is either a
boolean flag or an array of transform functions (opaque type `τ`); the
destructuring default for a missing property is the empty array. -/

/-- A `transform` property: a boolean or an array of transforms. -/
inductive TransformSpec (τ : Type) where
  | flag (b : Bool)
  | fns (ts : List τ)
deriving DecidableEq

/-- An object-form `FileSpec` (all callbacks resolved). -/
structure FileSpecObj (τ : Type) where
  sourceFile : Option String := none
  file : Option String := none
  destinationFile : Option String := none
  renameTo : Option String := none
  override : Option Bool := none
  transform : TransformSpec τ := .fns []
  binary : Bool := false
  noEjs : Option Bool := none
  method : Option String := none

/-- A `FileSpec`: a bare relative name or an object. -/
inductive FileSpecT (τ : Type) where
  | str (name : String)
  | obj (o : FileSpecObj τ)

/-- A block (`path`, `from`, `to`, `condition` resolved; `renameTo` is
the block-level rename callback). -/
structure BlockT (τ : Type) where
  path : String := "./"
  fromPath : Option String := none
  toPath : Option String := none
  condition : Option Bool := none
  transform : TransformSpec τ := .fns []
  renameTo : Option (String → String) := none
  templates : List (FileSpecT τ) := []

/-- A fully parsed render task, as handed to `renderTemplate`. -/
structure Task (τ : Type) where
  sourceFile : String
  destinationFile : String
  noEjs : Option Bool := none
  transform : List τ := []
  binary : Bool := false
deriving DecidableEq

inductive Log where
  | warn (msg : String)
  | debug (msg : String)
deriving DecidableEq

inductive WError where
  | templateNotFound (sourceFile : String) (searchedRoots : List String)
  | baseNameRequired
  | invalidSpec (msg : String)
  | missingSourceFile
deriving DecidableEq

/-- Filesystem/render effects emitted by the pipeline.  `render`'s
`sync` flag is true on the forced-synchronous (entity-seeded) path. -/
inductive Action (τ : Type) where
  | copy (src dst : String)
  | render (src dst : String) (sync : Bool)
  | edit (dst : String) (ts : List τ)
deriving DecidableEq

/-- Is this effect a verbatim copy? -/
def copyActionB {τ : Type} : Action τ → Bool
  | .copy _ _ => true
  | _ => false

/-- The parts of the render context `renderTemplate` inspects. -/
structure RenderContext where
  entityClass : Option String := none
  baseName : Option String := none
  fakerSeed : Option String := none

/-- The two shared entity registries, represented by the current faker
seed of each tracked entity (`configOptions.sharedEntities` and the
shared application's `sharedEntities`). -/
structure Registries where
  shared : List String := []
  global : List String := []
deriving DecidableEq

/-! ## `writeFiles`: binary / ejs inference and root resolution -/

def binaryExts : List String := [".png", ".jpg", ".gif", ".svg", ".ico"]

/-- `isBinary = binary || ['.png', ...].includes(extension)`. -/
def isBinaryOf {τ : Type} (t : Task τ) : Bool :=
  t.binary || binaryExts.contains (extname t.sourceFile)

/-- `appendEjs = noEjs === undefined ? !isBinary && extension !== '.ejs' : !noEjs`. -/
def appendEjsOf {τ : Type} (t : Task τ) : Bool :=
  match t.noEjs with
  | none => !isBinaryOf t && extname t.sourceFile != ".ejs"
  | some b => !b

/-- `ejsFile = appendEjs || extension === '.ejs'`. -/
def ejsFileOf {τ : Type} (t : Task τ) : Bool :=
  appendEjsOf t || extname t.sourceFile == ".ejs"

/-- The path actually tested for existence / read:
`appendEjs ? templateFile + '.ejs' : templateFile`. -/
def ejsVariant (appendEjs : Bool) (tf : String) : String :=
  if appendEjs then tf ++ ".ejs" else tf

/-- `rootTemplatesAbsolutePath.map(rootPath => this.templatePath(rootPath, sourceFile))`. -/
def templateCandidates (roots : List String) (sourceFile : String) : List String :=
  roots.map (fun r => pjoin r sourceFile)

/-- The `existingTemplates` list: candidates whose (possibly
`.ejs`-suffixed) file exists. -/
def existingTemplates (roots : List String) (ex : String → Bool)
    (sourceFile : String) (appendEjs : Bool) : List String :=
  (templateCandidates roots sourceFile).filter (fun tf => ex (ejsVariant appendEjs tf))

def conflictMsg (sourceFile : String) : String :=
  "Multiples templates were found for file " ++ sourceFile ++ ", using the first"

/-- The diagnostics emitted when several roots supply the template:
`length > 2` warns about a possible blueprint conflict, `length === 2`
only logs at debug level. -/
def conflictLogs (sourceFile : String) (existing : List String) : List Log :=
  if 2 < existing.length then
    [.warn ("Possible blueprint conflict detected: " ++ conflictMsg sourceFile)]
  else if 1 < existing.length then [.debug (conflictMsg sourceFile)]
  else []

/-! ## `writeFiles`: `renderTemplate` -/

structure RenderResult (τ : Type) where
  reg : Registries
  logs : List Log
  actions : List (Action τ)
  target : String
deriving DecidableEq

/-- The resolved destination:
`targetFile = appendEjs ? normalizeEjs(destinationFile) : destinationFile`. -/
def targetOf {τ : Type} (t : Task τ) : String :=
  if appendEjsOf t then normalizeEjs t.destinationFile else t.destinationFile

/-- The post-render transform application:
`if (!isBinary && transform && transform.length) this.editFile(targetFile, ...transform)`. -/
def editsOf {τ : Type} (t : Task τ) (targetFile : String) : List (Action τ) :=
  if !isBinaryOf t && !t.transform.isEmpty then [.edit targetFile t.transform] else []

/-- The per-template faker seed:
``seed = `${context.entityClass}-${basename}${context.fakerSeed ?? ''}` ``. -/
def entitySeed (ec sourceFileFrom : String) (ctx : RenderContext) : String :=
  ec ++ "-" ++ pbasename sourceFileFrom ++ ctx.fakerSeed.getD ""

/-- Reseed every entity in both shared registries. -/
def reseedAll (reg : Registries) (seed : String) : Registries :=
  ⟨reg.shared.map (fun _ => seed), reg.global.map (fun _ => seed)⟩

/-- The `renderTemplate` closure of `writeFiles` (array-roots case):
resolve the source across the ordered roots, emit diagnostics, copy
verbatim or render (reseeding the entity registries and forcing the
synchronous path when the context is entity-scoped), then apply the
task's transform chain. -/
def renderTemplateM {τ : Type} (roots : List String) (ex : String → Bool)
    (ctx : RenderContext) (reg : Registries) (t : Task τ) :
    Except WError (RenderResult τ) :=
  let appendEjs := appendEjsOf t
  let targetFile := targetOf t
  let existing := existingTemplates roots ex t.sourceFile appendEjs
  let logs := conflictLogs t.sourceFile existing
  match existing.head? with
  | none => .error (.templateNotFound t.sourceFile roots)
  | some first =>
    let sourceFileFrom := ejsVariant appendEjs first
    let edits := editsOf t targetFile
    if !ejsFileOf t then
      .ok ⟨reg, logs, .copy sourceFileFrom targetFile :: edits, targetFile⟩
    else
      match ctx.entityClass with
      | some ec =>
        if ctx.baseName.getD "" = "" then .error .baseNameRequired
        else
          let seed := entitySeed ec sourceFileFrom ctx
          .ok ⟨reseedAll reg seed, logs, .render sourceFileFrom targetFile true :: edits, targetFile⟩
      | none => .ok ⟨reg, logs, .render sourceFileFrom targetFile false :: edits, targetFile⟩

/-! ## `writeFiles`: block/section planning -/

/-- The two-stage `noEjs`/`derivedTransform` merge for an object file
spec: a boolean block transform sets `noEjs` and contributes no block
tier; a boolean file transform sets `noEjs` and contributes no file
tier; array transforms are concatenated
`method ++ section ++ block (++ file)`. -/
def mergedTransform {τ : Type} (methodT sectionT : List τ) (blockT : TransformSpec τ)
    (o : FileSpecObj τ) : Option Bool × List τ :=
  let st :=
    match blockT with
    | .flag b => (some (!b), methodT ++ sectionT)
    | .fns bt => (o.noEjs, methodT ++ sectionT ++ bt)
  match o.transform with
  | .flag b => (some (!b), st.2)
  | .fns ft => (st.1, st.2 ++ ft)

/-- The `method === 'copy'` compatibility adjustment made after the
override check. -/
def plannedNoEjs {τ : Type} (mt : Option Bool) (o : FileSpecObj τ) : Option Bool :=
  if mt == none && o.method == some "copy" then some true else mt

/-- Parse one object-form `FileSpec` of a block into a task (`none`
when the override check drops it). -/
def parseObjSpec {τ : Type} (methodT sectionT : List τ) (blockT : TransformSpec τ)
    (blockPath blockTo destRoot : String) (ex : String → Bool)
    (o : FileSpecObj τ) : Except WError (Option (Task τ)) :=
  let st2 := mergedTransform methodT sectionT blockT o
  match o.sourceFile <|> o.file with
  | none => .error .missingSourceFile
  | some nf =>
    let sourceFile := pjoin blockPath nf
    let destinationFile := destPath2 destRoot blockTo ((o.destinationFile <|> o.renameTo).getD nf)
    if o.override == some false && ex destinationFile then
      .ok none
    else
      .ok (some ⟨sourceFile, destinationFile, plannedNoEjs st2.1 o, st2.2, o.binary⟩)

/-- Parse one string-form `FileSpec` of a block. -/
def parseStrSpec {τ : Type} (methodT sectionT : List τ) (blockT : TransformSpec τ)
    (blockPath blockTo destRoot : String) (blockRenameTo : Option (String → String))
    (name : String) : Task τ :=
  let st :=
    match blockT with
    | .flag b => (some (!b), methodT ++ sectionT)
    | .fns bt => ((none : Option Bool), methodT ++ sectionT ++ bt)
  let sourceFile := pjoin blockPath name
  let destinationFile :=
    match blockRenameTo with
    | some f => destPath1 destRoot (f name)
    | none => destPath2 destRoot blockTo name
  ⟨sourceFile, destinationFile, st.1, st.2, false⟩

/-- Parse a block's `templates` list, left to right. -/
def parseSpecs {τ : Type} (methodT sectionT : List τ) (blockT : TransformSpec τ)
    (blockPath blockTo destRoot : String) (blockRenameTo : Option (String → String))
    (ex : String → Bool) : List (FileSpecT τ) → Except WError (List (Task τ))
  | [] => .ok []
  | .str name :: rest =>
    match parseSpecs methodT sectionT blockT blockPath blockTo destRoot blockRenameTo ex rest with
    | .error e => .error e
    | .ok ts =>
      .ok (parseStrSpec methodT sectionT blockT blockPath blockTo destRoot blockRenameTo name :: ts)
  | .obj o :: rest =>
    match parseObjSpec methodT sectionT blockT blockPath blockTo destRoot ex o with
    | .error e => .error e
    | .ok h =>
      match parseSpecs methodT sectionT blockT blockPath blockTo destRoot blockRenameTo ex rest with
      | .error e => .error e
      | .ok ts => .ok (match h with | some t => t :: ts | none => ts)

/-- Parse one block: evaluate the condition, resolve the asymmetric
`from`/`to` path overrides, then its file specs. -/
def parseBlockM {τ : Type} (methodT sectionT : List τ) (destRoot : String)
    (ex : String → Bool) (b : BlockT τ) : Except WError (List (Task τ)) :=
  if b.condition == some false then .ok []
  else
    let blockPath := b.fromPath.getD b.path
    let blockTo :=
      match b.toPath with
      | some t => if t = "" then blockPath else t
      | none => blockPath
    parseSpecs methodT sectionT b.transform blockPath blockTo destRoot b.renameTo ex b.templates

def parseBlocksM {τ : Type} (methodT sectionT : List τ) (destRoot : String)
    (ex : String → Bool) : List (BlockT τ) → Except WError (List (Task τ))
  | [] => .ok []
  | b :: bs =>
    match parseBlockM methodT sectionT destRoot ex b with
    | .error e => .error e
    | .ok ts =>
      match parseBlocksM methodT sectionT destRoot ex bs with
      | .error e => .error e
      | .ok rest => .ok (ts ++ rest)

/-! ## `writeFiles`: options and driver -/

/-- The `sections` object: the reserved `_` key carries the common spec
(its shared transform chain); other keys are named block arrays. -/
structure SectionsT (τ : Type) where
  common : Option (List τ) := none
  named : List (String × List (BlockT τ)) := []

/-- `sectionName.startsWith('_')`. -/
def underscoreName (s : String) : Bool :=
  match s.data with
  | '_' :: _ => true
  | _ => false

/-- Keys not starting with `_` contribute their blocks, in order. -/
def sectionBlocks {τ : Type} (s : SectionsT τ) : List (BlockT τ) :=
  ((s.named.filter (fun p => ! underscoreName p.1)).map Prod.snd).flatten

/-- An entry of the `templates` form: a string becomes
`{sourceFile: t, destinationFile: t}`, an object is used as-is. -/
inductive TemplateEntry (τ : Type) where
  | str (s : String)
  | task (t : Task τ)

structure WriteOptions (τ : Type) where
  sections : Option (SectionsT τ) := none
  blocks : Option (List (BlockT τ)) := none
  templates : Option (List (TemplateEntry τ)) := none
  transform : List τ := []

/-- `Object.keys(options).filter(key => ['sections', 'blocks', 'templates'].includes(key)).length`. -/
def paramCountW {τ : Type} (o : WriteOptions τ) : Nat :=
  (if o.sections.isSome then 1 else 0) + (if o.blocks.isSome then 1 else 0) +
    (if o.templates.isSome then 1 else 0)

/-- Run the planned tasks in order, threading the registries and
collecting logs, actions and written targets; the first failure aborts
the rest. -/
def runTasks {τ : Type} (roots : List String) (ex : String → Bool)
    (ctx : RenderContext) :
    Registries → List (Task τ) →
    List Log × List (Action τ) × Except WError (Registries × List String)
  | reg, [] => ([], [], .ok (reg, []))
  | reg, t :: ts =>
    match renderTemplateM roots ex ctx reg t with
    | .error e => ([], [], .error e)
    | .ok r =>
      let rest := runTasks roots ex ctx r.reg ts
      (r.logs ++ rest.1, r.actions ++ rest.2.1,
        rest.2.2.map (fun p => (p.1, r.target :: p.2)))

/-- `writeFiles(options)`: validate that exactly one of `sections`,
`blocks`, `templates` is given (before anything else), plan the render
tasks, then run them.  `exT` is the template filesystem
(`fs.existsSync`), `exD` the in-memory destination filesystem
(`this.fs.exists`).  Returns the logs, the effect trace, and either the
written destination paths or the first error. -/
def writeFilesM {τ : Type} (roots : List String) (destRoot : String)
    (exT exD : String → Bool) (ctx : RenderContext) (reg : Registries)
    (opts : WriteOptions τ) :
    List Log × List (Action τ) × Except WError (Registries × List String) :=
  if paramCountW opts = 0 then
    ([], [], .error (.invalidSpec "One of sections, blocks or templates is required"))
  else if paramCountW opts ≠ 1 then
    ([], [], .error (.invalidSpec "Only one of sections, blocks or templates must be provided"))
  else
    let methodT := opts.transform
    let sectionT := (opts.sections.bind SectionsT.common).getD []
    let planned : Except WError (List (Task τ)) :=
      match opts.sections with
      | some s => parseBlocksM methodT sectionT destRoot exD (sectionBlocks s)
      | none =>
        match opts.blocks with
        | some bs => parseBlocksM methodT sectionT destRoot exD bs
        | none =>
          match opts.templates with
          | some es =>
            .ok (es.map (fun e =>
              match e with
              | .str s => ⟨s, s, none, [], false⟩
              | .task t => t))
          | none => .ok []
    match planned with
    | .error e => ([], [], .error e)
    | .ok tasks => runTasks roots exT ctx reg tasks

/-! ## Helper lemmas -/

theorem head?_filter_eq_find? {α : Type} (p : α → Bool) :
    ∀ l : List α, (l.filter p).head? = l.find? p
  | [] => rfl
  | a :: t => by
    cases h : p a
    · simp [List.filter_cons, List.find?_cons, h, head?_filter_eq_find? p t]
    · simp [List.filter_cons, List.find?_cons, h]

/-- Full characterization of a successful `renderTemplate`. -/
theorem renderTemplateM_ok {τ : Type} {roots : List String} {ex : String → Bool}
    {ctx : RenderContext} {reg : Registries} {t : Task τ} {res : RenderResult τ}
    (h : renderTemplateM roots ex ctx reg t = .ok res) :
    ∃ first,
      (existingTemplates roots ex t.sourceFile (appendEjsOf t)).head? = some first ∧
      res.target = targetOf t ∧
      res.logs = conflictLogs t.sourceFile
        (existingTemplates roots ex t.sourceFile (appendEjsOf t)) ∧
      ((ejsFileOf t = false ∧ res.reg = reg ∧
        res.actions = Action.copy (ejsVariant (appendEjsOf t) first) (targetOf t) ::
          editsOf t (targetOf t)) ∨
       (ejsFileOf t = true ∧ ctx.entityClass = none ∧ res.reg = reg ∧
        res.actions = Action.render (ejsVariant (appendEjsOf t) first) (targetOf t) false ::
          editsOf t (targetOf t)) ∨
       (ejsFileOf t = true ∧ ∃ ec, ctx.entityClass = some ec ∧ ctx.baseName.getD "" ≠ "" ∧
        res.reg = reseedAll reg (entitySeed ec (ejsVariant (appendEjsOf t) first) ctx) ∧
        res.actions = Action.render (ejsVariant (appendEjsOf t) first) (targetOf t) true ::
          editsOf t (targetOf t))) := by
  cases hf : (existingTemplates roots ex t.sourceFile (appendEjsOf t)).head? with
  | none =>
    simp only [renderTemplateM, hf] at h
    exact Except.noConfusion h
  | some first =>
    simp only [renderTemplateM, hf] at h
    refine ⟨first, rfl, ?_⟩
    cases he : ejsFileOf t with
    | true =>
      simp only [he, Bool.not_true, Bool.false_eq_true, if_false] at h
      cases hec : ctx.entityClass with
      | none =>
        rw [hec] at h
        injection h with h
        subst h
        exact ⟨rfl, rfl, Or.inr (Or.inl ⟨rfl, rfl, rfl, rfl⟩)⟩
      | some ec =>
        rw [hec] at h
        by_cases hb : ctx.baseName.getD "" = ""
        · simp only [if_pos hb] at h
          exact Except.noConfusion h
        · simp only [if_neg hb] at h
          injection h with h
          subst h
          exact ⟨rfl, rfl, Or.inr (Or.inr ⟨rfl, ec, rfl, hb, rfl, rfl⟩)⟩
    | false =>
      simp only [he, Bool.not_false, if_true] at h
      injection h with h
      subst h
      exact ⟨rfl, rfl, Or.inl ⟨rfl, rfl, rfl⟩⟩

/-- `renderTemplate` fails with `TemplateNotFound` (naming the searched
roots) exactly when no root supplies the source file. -/
theorem renderTemplateM_notFound_iff {τ : Type} (roots : List String) (ex : String → Bool)
    (ctx : RenderContext) (reg : Registries) (t : Task τ) :
    renderTemplateM roots ex ctx reg t = .error (.templateNotFound t.sourceFile roots) ↔
      existingTemplates roots ex t.sourceFile (appendEjsOf t) = [] := by
  constructor
  · intro h
    cases hf : (existingTemplates roots ex t.sourceFile (appendEjsOf t)).head? with
    | none => exact List.head?_eq_none_iff.mp hf
    | some first =>
      simp only [renderTemplateM, hf] at h
      exfalso
      cases he : ejsFileOf t with
      | true =>
        simp only [he, Bool.not_true, Bool.false_eq_true, if_false] at h
        cases hec : ctx.entityClass with
        | none => rw [hec] at h; exact Except.noConfusion h
        | some ec =>
          rw [hec] at h
          by_cases hb : ctx.baseName.getD "" = ""
          · simp only [if_pos hb] at h
            exact WError.noConfusion (Except.error.inj h)
          · simp only [if_neg hb] at h
            exact Except.noConfusion h
      | false =>
        simp only [he, Bool.not_false, if_true] at h
        exact Except.noConfusion h
  · intro h
    simp only [renderTemplateM, h]
    rfl

theorem editsOf_any_copy {τ : Type} (t : Task τ) (tf : String) :
    (editsOf t tf).any copyActionB = false := by
  unfold editsOf
  split
  · rfl
  · rfl

theorem editsOf_of_not_binary {τ : Type} (t : Task τ) (tf : String)
    (hbin : isBinaryOf t = false) (hne : t.transform ≠ []) :
    editsOf t tf = [.edit tf t.transform] := by
  unfold editsOf
  rw [if_pos]
  rw [hbin]
  simp only [Bool.not_false, Bool.true_and, Bool.not_eq_true']
  exact List.isEmpty_eq_false.mpr hne

/-- A file spec that is not dropped by the override check parses to a
task targeting the computed destination. -/
theorem parseObjSpec_not_skipped {τ : Type} (methodT sectionT : List τ)
    (bt : TransformSpec τ) (blockPath blockTo destRoot : String) (exD : String → Bool)
    (o : FileSpecObj τ) (nf : String) (h1 : (o.sourceFile <|> o.file) = some nf)
    (h2 : (o.override == some false &&
      exD (destPath2 destRoot blockTo ((o.destinationFile <|> o.renameTo).getD nf))) = false) :
    ∃ tsk : Task τ,
      parseObjSpec methodT sectionT bt blockPath blockTo destRoot exD o = .ok (some tsk) ∧
      tsk.sourceFile = pjoin blockPath nf ∧
      tsk.destinationFile =
        destPath2 destRoot blockTo ((o.destinationFile <|> o.renameTo).getD nf) := by
  refine ⟨⟨pjoin blockPath nf,
    destPath2 destRoot blockTo ((o.destinationFile <|> o.renameTo).getD nf),
    plannedNoEjs (mergedTransform methodT sectionT bt o).1 o,
    (mergedTransform methodT sectionT bt o).2, o.binary⟩, ?_, rfl, rfl⟩
  simp only [parseObjSpec, h1, h2, Bool.false_eq_true, if_false]

/-- Computation of `writeFiles` for a one-section, one-block,
one-object-spec request. -/
theorem writeFilesM_single_obj {τ : Type} (roots : List String) (destRoot : String)
    (exT exD : String → Bool) (ctx : RenderContext) (reg : Registries)
    (methodT sectionT : List τ) (bt : TransformSpec τ) (blockPath blockTo : String)
    (o : FileSpecObj τ) (h4 : blockTo ≠ "") :
    writeFilesM roots destRoot exT exD ctx reg
      ⟨some ⟨some sectionT,
        [("files", [⟨blockPath, none, some blockTo, none, bt, none, [.obj o]⟩])]⟩,
        none, none, methodT⟩ =
      match parseObjSpec methodT sectionT bt blockPath blockTo destRoot exD o with
      | .error e => ([], [], .error e)
      | .ok none => runTasks roots exT ctx reg []
      | .ok (some tsk) => runTasks roots exT ctx reg [tsk] := by
  have hsb : sectionBlocks (τ := τ) ⟨some sectionT,
      [("files", [⟨blockPath, none, some blockTo, none, bt, none, [.obj o]⟩])]⟩ =
      [⟨blockPath, none, some blockTo, none, bt, none, [.obj o]⟩] := rfl
  cases hp : parseObjSpec methodT sectionT bt blockPath blockTo destRoot exD o with
  | error e =>
    simp [writeFilesM, paramCountW, hsb, parseBlocksM, parseBlockM, parseSpecs, h4, hp]
  | ok h =>
    cases h with
    | none =>
      simp [writeFilesM, paramCountW, hsb, parseBlocksM, parseBlockM, parseSpecs, h4, hp]
    | some tsk =>
      simp [writeFilesM, paramCountW, hsb, parseBlocksM, parseBlockM, parseSpecs, h4, hp]

/-- A singleton batch that succeeds wrote exactly its task's target. -/
theorem runTasks_singleton_ok {τ : Type} (roots : List String) (exT : String → Bool)
    (ctx : RenderContext) (reg : Registries) (tsk : Task τ) {ls : List Log}
    {as : List (Action τ)} {rg : Registries} {fs : List String}
    (h : runTasks roots exT ctx reg [tsk] = (ls, as, .ok (rg, fs))) :
    fs = [targetOf tsk] := by
  cases hr : renderTemplateM roots exT ctx reg tsk with
  | error e => simp [runTasks, hr] at h
  | ok r =>
    rw [show runTasks roots exT ctx reg [tsk] =
        (r.logs ++ [], r.actions ++ [], .ok (r.reg, [r.target])) from by
      simp [runTasks, hr, Except.map]] at h
    simp only [Prod.mk.injEq, Except.ok.injEq] at h
    obtain ⟨-, -, -, hfs⟩ := h
    obtain ⟨first, -, htgt, -, -⟩ := renderTemplateM_ok hr
    rw [← hfs, htgt]

/-- When the whitespace run before the sentinel is exactly `ws`, the
regex matches and consumes through the end of the sentinel. -/
theorem needleTail_all_ws (ws rest : List Char) (h : ∀ c ∈ ws, isJsWS c = true) :
    needleTail (ws ++ iconNeedle ++ rest) = some rest := by
  have hdw : (ws ++ iconNeedle ++ rest).dropWhile isJsWS = iconNeedle ++ rest := by
    rw [List.append_assoc, List.dropWhile_append]
    have hnil : ws.dropWhile isJsWS = [] := List.dropWhile_eq_nil_iff.mpr
      (fun x hx => by simp [h x hx])
    simp only [hnil, List.isEmpty_nil, if_true]
    rfl
  simp only [needleTail, hdw, List.isPrefixOf_iff_prefix.mpr ⟨rest, rfl⟩, if_true]
  rw [List.drop_left]

/-- One scan step of the global replace at a `\n`-anchored match. -/
theorem addIconReplace_step_LF (ip ii t rest : List Char)
    (hnt : needleTail t = some rest) :
    addIconReplace ip ii ('\n' :: t) = iconRepl ip ii ++ addIconReplace ip ii rest := by
  rw [addIconReplace.eq_def]
  simp only
  split
  · rename_i rest1 hsome
    rw [hnt] at hsome
    injection hsome with hsome
    rw [hsome]
  · rename_i hnone
    rw [hnt] at hnone
    cases hnone

/-- One scan step of the global replace at a `\r\n`-anchored match
(the `\r` is part of the match and is replaced by a plain `\n`). -/
theorem addIconReplace_step_CRLF (ip ii t rest : List Char)
    (hnt : needleTail t = some rest) :
    addIconReplace ip ii ('\r' :: '\n' :: t) =
      iconRepl ip ii ++ addIconReplace ip ii rest := by
  rw [addIconReplace.eq_def]
  simp only
  split
  · rename_i rest1 hsome
    rw [hnt] at hsome
    injection hsome with hsome
    rw [hsome]
  · rename_i hnone
    rw [hnt] at hnone
    cases hnone

/-! ## Claim theorems -/

/-- **C1** (template-root precedence): the chosen template is the first
candidate, in root order, whose (possibly `.ejs`-suffixed) file exists;
`renderTemplate` fails with `TemplateNotFound` naming the searched
roots exactly when no root supplies the file; and on success the file
actually copied or rendered is the one from that first matching
root. -/
theorem C1_template_root_precedence {τ : Type} (roots : List String)
    (ex : String → Bool) (ctx : RenderContext) (reg : Registries) (t : Task τ) :
    (existingTemplates roots ex t.sourceFile (appendEjsOf t)).head? =
      (templateCandidates roots t.sourceFile).find?
        (fun tf => ex (ejsVariant (appendEjsOf t) tf)) ∧
    (renderTemplateM roots ex ctx reg t = .error (.templateNotFound t.sourceFile roots) ↔
      existingTemplates roots ex t.sourceFile (appendEjsOf t) = []) ∧
    (∀ res : RenderResult τ, renderTemplateM roots ex ctx reg t = .ok res →
      ∃ first, (existingTemplates roots ex t.sourceFile (appendEjsOf t)).head? = some first ∧
        (res.actions.head? = some (.copy (ejsVariant (appendEjsOf t) first) res.target) ∨
         ∃ sync, res.actions.head? =
           some (.render (ejsVariant (appendEjsOf t) first) res.target sync))) := by
  refine ⟨head?_filter_eq_find? _ _, renderTemplateM_notFound_iff roots ex ctx reg t, ?_⟩
  intro res h
  obtain ⟨first, hf, htgt, _, hcases⟩ := renderTemplateM_ok h
  refine ⟨first, hf, ?_⟩
  rcases hcases with ⟨_, _, hact⟩ | ⟨_, _, _, hact⟩ | ⟨_, _, _, _, _, hact⟩ <;>
    rw [hact, htgt]
  · exact Or.inl rfl
  · exact Or.inr ⟨false, rfl⟩
  · exact Or.inr ⟨true, rfl⟩

/-- Witness for C1: two roots `A`, `B`, both containing `f.txt.ejs`;
a successful render uses `A`'s file. -/
theorem C1_template_root_precedence_witness :
    renderTemplateM ["A", "B"] (fun s => s == "A/f.txt.ejs" || s == "B/f.txt.ejs")
        ⟨none, none, none⟩ ⟨[], []⟩ (⟨"f.txt", "out/f.txt", none, [], false⟩ : Task Unit) =
      .ok ⟨⟨[], []⟩, [.debug (conflictMsg "f.txt")],
        [.render "A/f.txt.ejs" "out/f.txt" false], "out/f.txt"⟩ ∧
    (∃ first,
      (existingTemplates ["A", "B"] (fun s => s == "A/f.txt.ejs" || s == "B/f.txt.ejs")
          "f.txt" (appendEjsOf (⟨"f.txt", "out/f.txt", none, [], false⟩ : Task Unit))).head? =
        some first ∧
      ((⟨⟨[], []⟩, [.debug (conflictMsg "f.txt")],
          [.render "A/f.txt.ejs" "out/f.txt" false], "out/f.txt"⟩ :
            RenderResult Unit).actions.head? =
          some (.copy (ejsVariant (appendEjsOf (⟨"f.txt", "out/f.txt", none, [], false⟩ : Task Unit))
            first) "out/f.txt") ∨
       ∃ sync, (⟨⟨[], []⟩, [.debug (conflictMsg "f.txt")],
          [.render "A/f.txt.ejs" "out/f.txt" false], "out/f.txt"⟩ :
            RenderResult Unit).actions.head? =
          some (.render (ejsVariant (appendEjsOf (⟨"f.txt", "out/f.txt", none, [], false⟩ : Task Unit))
            first) "out/f.txt" sync))) :=
  ⟨rfl,
    (C1_template_root_precedence ["A", "B"] (fun s => s == "A/f.txt.ejs" || s == "B/f.txt.ejs")
      ⟨none, none, none⟩ ⟨[], []⟩ (⟨"f.txt", "out/f.txt", none, [], false⟩ : Task Unit)).2.2
      ⟨⟨[], []⟩, [.debug (conflictMsg "f.txt")],
        [.render "A/f.txt.ejs" "out/f.txt" false], "out/f.txt"⟩ rfl⟩

/-- **C2** (generation-spec validation): whenever the number of
`sections` / `blocks` / `templates` keys is not exactly one,
`writeFiles` fails with the corresponding assertion message and
performs no lookup, render or write (empty log and action traces). -/
theorem C2_generation_spec_validation {τ : Type} (roots : List String) (destRoot : String)
    (exT exD : String → Bool) (ctx : RenderContext) (reg : Registries)
    (opts : WriteOptions τ) (h : paramCountW opts ≠ 1) :
    writeFilesM roots destRoot exT exD ctx reg opts =
      ([], [], .error (.invalidSpec
        (if paramCountW opts = 0 then "One of sections, blocks or templates is required"
         else "Only one of sections, blocks or templates must be provided"))) := by
  by_cases h0 : paramCountW opts = 0
  · simp [writeFilesM, h0]
  · simp [writeFilesM, h0, h]

/-- Witness for C2: an options object carrying both `sections` and
`templates` is rejected with the `assert(paramCount === 1)` message. -/
theorem C2_generation_spec_validation_witness :
    writeFilesM (τ := Unit) [] "" (fun _ => false) (fun _ => false) ⟨none, none, none⟩ ⟨[], []⟩
      ⟨some ⟨none, []⟩, none, some [], []⟩ =
      ([], [], .error (.invalidSpec "Only one of sections, blocks or templates must be provided")) :=
  C2_generation_spec_validation [] "" (fun _ => false) (fun _ => false)
    ⟨none, none, none⟩ ⟨[], []⟩ ⟨some ⟨none, []⟩, none, some [], []⟩ (by decide)

/-- **C8** (override-conflict diagnostics are never fatal): the
conflict diagnostic is a warning exactly when more than two roots
matched, and a debug note exactly when exactly two matched; a
successful render emits exactly these diagnostics and always keeps the
first match. -/
theorem C8_override_conflict_diagnostics {τ : Type} (sourceFile : String)
    (existing roots : List String) (ex : String → Bool) (ctx : RenderContext)
    (reg : Registries) (t : Task τ) :
    (conflictLogs sourceFile existing =
        [.warn ("Possible blueprint conflict detected: " ++ conflictMsg sourceFile)] ↔
      2 < existing.length) ∧
    (conflictLogs sourceFile existing = [.debug (conflictMsg sourceFile)] ↔
      existing.length = 2) ∧
    (∀ res : RenderResult τ, renderTemplateM roots ex ctx reg t = .ok res →
      res.logs = conflictLogs t.sourceFile
        (existingTemplates roots ex t.sourceFile (appendEjsOf t)) ∧
      ∃ first, (existingTemplates roots ex t.sourceFile (appendEjsOf t)).head? = some first ∧
        (res.actions.head? = some (.copy (ejsVariant (appendEjsOf t) first) res.target) ∨
         ∃ sync, res.actions.head? =
           some (.render (ejsVariant (appendEjsOf t) first) res.target sync))) := by
  refine ⟨?_, ?_, ?_⟩
  · by_cases h2 : 2 < existing.length
    · simp [conflictLogs, h2]
    · by_cases h1 : 1 < existing.length <;> simp [conflictLogs, h2, h1]
  · by_cases h2 : 2 < existing.length
    · simp only [conflictLogs, h2, if_true]
      constructor
      · intro hcontra; cases hcontra
      · omega
    · by_cases h1 : 1 < existing.length
      · simp [conflictLogs, h2, h1]
        omega
      · simp [conflictLogs, h2, h1]
        omega
  · intro res h
    obtain ⟨first, hf, htgt, hlogs, hcases⟩ := renderTemplateM_ok h
    refine ⟨hlogs, first, hf, ?_⟩
    rcases hcases with ⟨_, _, hact⟩ | ⟨_, _, _, hact⟩ | ⟨_, _, _, _, _, hact⟩ <;>
      rw [hact, htgt]
    · exact Or.inl rfl
    · exact Or.inr ⟨false, rfl⟩
    · exact Or.inr ⟨true, rfl⟩

/-- Witness for C8: three roots all containing the template; the
render succeeds, logs the blueprint-conflict warning and uses the
first match. -/
theorem C8_override_conflict_diagnostics_witness :
    ((⟨⟨[], []⟩, [.warn ("Possible blueprint conflict detected: " ++ conflictMsg "f.txt")],
        [.render "A/f.txt.ejs" "out/f.txt" false], "out/f.txt"⟩ :
          RenderResult Unit).logs =
      conflictLogs "f.txt" (existingTemplates ["A", "B", "C"] (fun _ => true) "f.txt"
        (appendEjsOf (⟨"f.txt", "out/f.txt", none, [], false⟩ : Task Unit)))) ∧
    (∃ first,
      (existingTemplates ["A", "B", "C"] (fun _ => true) "f.txt"
          (appendEjsOf (⟨"f.txt", "out/f.txt", none, [], false⟩ : Task Unit))).head? =
        some first ∧
      ((⟨⟨[], []⟩, [.warn ("Possible blueprint conflict detected: " ++ conflictMsg "f.txt")],
          [.render "A/f.txt.ejs" "out/f.txt" false], "out/f.txt"⟩ :
            RenderResult Unit).actions.head? =
          some (.copy (ejsVariant (appendEjsOf (⟨"f.txt", "out/f.txt", none, [], false⟩ : Task Unit))
            first) "out/f.txt") ∨
       ∃ sync, (⟨⟨[], []⟩,
          [.warn ("Possible blueprint conflict detected: " ++ conflictMsg "f.txt")],
          [.render "A/f.txt.ejs" "out/f.txt" false], "out/f.txt"⟩ :
            RenderResult Unit).actions.head? =
          some (.render (ejsVariant (appendEjsOf (⟨"f.txt", "out/f.txt", none, [], false⟩ : Task Unit))
            first) "out/f.txt" sync))) :=
  (C8_override_conflict_diagnostics "f.txt" ["A/f.txt", "B/f.txt", "C/f.txt"] ["A", "B", "C"]
    (fun _ => true) ⟨none, none, none⟩ ⟨[], []⟩
    (⟨"f.txt", "out/f.txt", none, [], false⟩ : Task Unit)).2.2
    ⟨⟨[], []⟩, [.warn ("Possible blueprint conflict detected: " ++ conflictMsg "f.txt")],
      [.render "A/f.txt.ejs" "out/f.txt" false], "out/f.txt"⟩ rfl

/-- **C7, counterexample**: the claim says a task with the explicit
`binary` flag set is treated as a verbatim copy.  But for a task whose
source already has the literal `.ejs` extension, `ejsFile` is true
regardless of `isBinary`, so the task is template-rendered, not copied:
with `binary: true` and source `image.ejs` the emitted effect is a
`render`, and no copy action is emitted. -/
theorem C7_binary_inference_counterexample :
    (⟨"image.ejs", "image.ejs", none, [], true⟩ : Task Unit).binary = true ∧
    isBinaryOf (⟨"image.ejs", "image.ejs", none, [], true⟩ : Task Unit) = true ∧
    renderTemplateM ["r"] (fun _ => true) ⟨none, none, none⟩ ⟨[], []⟩
        (⟨"image.ejs", "image.ejs", none, [], true⟩ : Task Unit) =
      .ok ⟨⟨[], []⟩, [], [.render "r/image.ejs" "image.ejs" false], "image.ejs"⟩ ∧
    ([Action.render (τ := Unit) "r/image.ejs" "image.ejs" false].any copyActionB) = false :=
  ⟨rfl, rfl, rfl, rfl⟩

/-- **C7, amended** (binary and template-mode inference): `isBinary`
holds exactly when the explicit flag is set or the extension is one of
`.png .jpg .gif .svg .ico`; the append-`.ejs` template mode defaults to
on unless the task is binary or the source already has the literal
`.ejs` extension, and an explicit `noEjs` flag always determines it;
but the verbatim-copy decision is `ejsFile = appendEjs || ext === '.ejs'`,
so a successful task is copied verbatim exactly when `ejsFile` is
false (in particular a binary-flagged `.ejs` source is still
rendered). -/
theorem C7_binary_ejs_inference {τ : Type} (t : Task τ) :
    isBinaryOf t = (t.binary || binaryExts.contains (extname t.sourceFile)) ∧
    appendEjsOf t = (match t.noEjs with
      | none => !isBinaryOf t && extname t.sourceFile != ".ejs"
      | some b => !b) ∧
    ejsFileOf t = (appendEjsOf t || extname t.sourceFile == ".ejs") ∧
    (∀ (roots : List String) (ex : String → Bool) (ctx : RenderContext) (reg : Registries)
        (res : RenderResult τ), renderTemplateM roots ex ctx reg t = .ok res →
      (res.actions.any copyActionB = true ↔ ejsFileOf t = false)) := by
  refine ⟨rfl, rfl, rfl, ?_⟩
  intro roots ex ctx reg res h
  obtain ⟨first, _, htgt, _, hcases⟩ := renderTemplateM_ok h
  rcases hcases with ⟨hejs, _, hact⟩ | ⟨hejs, _, _, hact⟩ | ⟨hejs, _, _, _, _, hact⟩ <;>
    rw [hact, hejs] <;>
    simp [copyActionB, editsOf_any_copy]

/-- Witness for C7: a plain text template renders (no copy action),
matching `ejsFile = true`. -/
theorem C7_binary_ejs_inference_witness :
    ((⟨⟨[], []⟩, [.debug (conflictMsg "f.txt")],
        [.render "A/f.txt.ejs" "out/f.txt" false], "out/f.txt"⟩ :
          RenderResult Unit).actions.any copyActionB = true ↔
      ejsFileOf (⟨"f.txt", "out/f.txt", none, [], false⟩ : Task Unit) = false) :=
  (C7_binary_ejs_inference (⟨"f.txt", "out/f.txt", none, [], false⟩ : Task Unit)).2.2.2
    ["A", "B"] (fun s => s == "A/f.txt.ejs" || s == "B/f.txt.ejs") ⟨none, none, none⟩ ⟨[], []⟩
    ⟨⟨[], []⟩, [.debug (conflictMsg "f.txt")],
      [.render "A/f.txt.ejs" "out/f.txt" false], "out/f.txt"⟩ rfl

/-- **C5** (entity-scoped render seeding): when the context carries an
`entityClass` and the task is expandable, a successful render reseeds
every entity in both shared registries with
`entityClass + '-' + basename(sourceFileFrom) + (fakerSeed ?? '')`
immediately before the render, and the render runs on the synchronous
(non-suspending) path. -/
theorem C5_entity_scoped_seeding {τ : Type} (roots : List String) (ex : String → Bool)
    (ctx : RenderContext) (reg : Registries) (t : Task τ) (ec : String)
    (h1 : ctx.entityClass = some ec) (h2 : ejsFileOf t = true)
    (res : RenderResult τ) (h3 : renderTemplateM roots ex ctx reg t = .ok res) :
    ∃ first, (existingTemplates roots ex t.sourceFile (appendEjsOf t)).head? = some first ∧
      res.reg.shared = reg.shared.map
        (fun _ => entitySeed ec (ejsVariant (appendEjsOf t) first) ctx) ∧
      res.reg.global = reg.global.map
        (fun _ => entitySeed ec (ejsVariant (appendEjsOf t) first) ctx) ∧
      res.actions.head? = some (.render (ejsVariant (appendEjsOf t) first) res.target true) := by
  obtain ⟨first, hf, htgt, _, hcases⟩ := renderTemplateM_ok h3
  rcases hcases with ⟨hejs, _, _⟩ | ⟨_, hec, _, _⟩ | ⟨_, ec', hec, _, hreg, hact⟩
  · rw [h2] at hejs; cases hejs
  · rw [h1] at hec; cases hec
  · rw [h1] at hec
    injection hec with hec
    subst hec
    exact ⟨first, hf, by rw [hreg]; rfl, by rw [hreg]; rfl, by rw [hact, htgt]; rfl⟩

/-- Witness for C5: an entity-scoped render of `entity.txt` reseeds the
two registries (two local entities, one global) and renders
synchronously. -/
theorem C5_entity_scoped_seeding_witness :
    ∃ first, (existingTemplates ["A"] (fun _ => true) "entity.txt"
        (appendEjsOf (⟨"entity.txt", "out/entity.txt", none, [], false⟩ : Task Unit))).head? =
      some first ∧
      (⟨⟨["Author-entity.txt.ejsX", "Author-entity.txt.ejsX"], ["Author-entity.txt.ejsX"]⟩,
        [], [.render "A/entity.txt.ejs" "out/entity.txt" true], "out/entity.txt"⟩ :
          RenderResult Unit).reg.shared = ["s1", "s2"].map
        (fun _ => entitySeed "Author"
          (ejsVariant (appendEjsOf (⟨"entity.txt", "out/entity.txt", none, [], false⟩ : Task Unit))
            first) ⟨some "Author", some "app", some "X"⟩) ∧
      (⟨⟨["Author-entity.txt.ejsX", "Author-entity.txt.ejsX"], ["Author-entity.txt.ejsX"]⟩,
        [], [.render "A/entity.txt.ejs" "out/entity.txt" true], "out/entity.txt"⟩ :
          RenderResult Unit).reg.global = ["g1"].map
        (fun _ => entitySeed "Author"
          (ejsVariant (appendEjsOf (⟨"entity.txt", "out/entity.txt", none, [], false⟩ : Task Unit))
            first) ⟨some "Author", some "app", some "X"⟩) ∧
      (⟨⟨["Author-entity.txt.ejsX", "Author-entity.txt.ejsX"], ["Author-entity.txt.ejsX"]⟩,
        [], [.render "A/entity.txt.ejs" "out/entity.txt" true], "out/entity.txt"⟩ :
          RenderResult Unit).actions.head? =
        some (.render (ejsVariant
          (appendEjsOf (⟨"entity.txt", "out/entity.txt", none, [], false⟩ : Task Unit)) first)
          (⟨⟨["Author-entity.txt.ejsX", "Author-entity.txt.ejsX"], ["Author-entity.txt.ejsX"]⟩,
            [], [.render "A/entity.txt.ejs" "out/entity.txt" true], "out/entity.txt"⟩ :
              RenderResult Unit).target true) :=
  C5_entity_scoped_seeding ["A"] (fun _ => true) ⟨some "Author", some "app", some "X"⟩
    ⟨["s1", "s2"], ["g1"]⟩ (⟨"entity.txt", "out/entity.txt", none, [], false⟩ : Task Unit)
    "Author" rfl rfl
    ⟨⟨["Author-entity.txt.ejsX", "Author-entity.txt.ejsX"], ["Author-entity.txt.ejsX"]⟩,
      [], [.render "A/entity.txt.ejs" "out/entity.txt" true], "out/entity.txt"⟩ rfl

/-- **C4** (four-tier transform ordering): a task planned from an
object file spec with array-form block and file transforms carries the
chain `method ++ section ++ block ++ file`, in that tier order; a
string file spec carries `method ++ section ++ block`; and the render
applies exactly that chain to the rendered file as the last effect. -/
theorem C4_transform_tier_order {τ : Type} (methodT sectionT bt ft : List τ)
    (blockPath blockTo destRoot : String) (exD : String → Bool) (o : FileSpecObj τ)
    (nf : String) (h1 : o.transform = .fns ft) (h2 : (o.sourceFile <|> o.file) = some nf)
    (h3 : o.override = none) :
    ∃ tsk : Task τ,
      parseObjSpec methodT sectionT (.fns bt) blockPath blockTo destRoot exD o =
        .ok (some tsk) ∧
      tsk.transform = methodT ++ sectionT ++ bt ++ ft ∧
      (parseStrSpec methodT sectionT (.fns bt) blockPath blockTo destRoot none nf).transform =
        methodT ++ sectionT ++ bt ∧
      (∀ (roots : List String) (exT : String → Bool) (ctx : RenderContext) (reg : Registries)
          (res : RenderResult τ), renderTemplateM roots exT ctx reg tsk = .ok res →
        isBinaryOf tsk = false → tsk.transform ≠ [] →
        res.actions.getLast? = some (.edit res.target tsk.transform)) := by
  refine ⟨⟨pjoin blockPath nf,
    destPath2 destRoot blockTo ((o.destinationFile <|> o.renameTo).getD nf),
    plannedNoEjs o.noEjs o, (methodT ++ sectionT ++ bt) ++ ft, o.binary⟩, ?_, by simp, rfl, ?_⟩
  · simp [parseObjSpec, mergedTransform, plannedNoEjs, h1, h2, h3]
  · intro roots exT ctx reg res h hbin hne
    obtain ⟨first, _, htgt, _, hcases⟩ := renderTemplateM_ok h
    rcases hcases with ⟨_, _, hact⟩ | ⟨_, _, _, hact⟩ | ⟨_, _, _, _, _, hact⟩ <;>
      rw [hact, htgt, editsOf_of_not_binary _ _ hbin hne] <;> simp

/-- Witness for C4: with method `[1]`, section `[2]`, block `[3]` and
file `[4]` transforms the planned chain is `[1, 2, 3, 4]`. -/
theorem C4_transform_tier_order_witness :
    ∃ tsk : Task Nat,
      parseObjSpec [1] [2] (.fns [3]) "src" "out" "d" (fun _ => false)
          ⟨some "a.txt", none, none, none, none, .fns [4], false, none, none⟩ =
        .ok (some tsk) ∧
      tsk.transform = [1] ++ [2] ++ [3] ++ [4] ∧
      (parseStrSpec [1] [2] (.fns [3]) "src" "out" "d" none "a.txt").transform =
        [1] ++ [2] ++ [3] ∧
      (∀ (roots : List String) (exT : String → Bool) (ctx : RenderContext) (reg : Registries)
          (res : RenderResult Nat), renderTemplateM roots exT ctx reg tsk = .ok res →
        isBinaryOf tsk = false → tsk.transform ≠ [] →
        res.actions.getLast? = some (.edit res.target tsk.transform)) :=
  C4_transform_tier_order [1] [2] [3] [4] "src" "out" "d" (fun _ => false)
    ⟨some "a.txt", none, none, none, none, .fns [4], false, none, none⟩ "a.txt" rfl rfl rfl

/-- **C6** (skip-if-exists): a file spec whose resolved `override` is
false and whose destination already exists is dropped during planning
(no error), the corresponding one-spec `writeFiles` request performs no
action and returns an empty written-file list (so the destination path
is excluded and the file untouched); with `override` true or unset the
spec parses to a task targeting the destination, and a successful run
of the request reports exactly that destination as written. -/
theorem C6_skip_if_exists {τ : Type} (methodT sectionT : List τ) (bt : TransformSpec τ)
    (blockPath blockTo destRoot : String) (roots : List String) (exT exD : String → Bool)
    (ctx : RenderContext) (reg : Registries) (o : FileSpecObj τ) (nf : String)
    (h1 : (o.sourceFile <|> o.file) = some nf)
    (h2 : o.override = some false)
    (h3 : exD (destPath2 destRoot blockTo ((o.destinationFile <|> o.renameTo).getD nf)) = true)
    (h4 : blockTo ≠ "") :
    parseObjSpec methodT sectionT bt blockPath blockTo destRoot exD o = .ok none ∧
    writeFilesM roots destRoot exT exD ctx reg
      ⟨some ⟨some sectionT,
        [("files", [⟨blockPath, none, some blockTo, none, bt, none, [.obj o]⟩])]⟩,
        none, none, methodT⟩ = ([], [], .ok (reg, [])) ∧
    (∃ tsk : Task τ,
      parseObjSpec methodT sectionT bt blockPath blockTo destRoot exD
          { o with override := some true } = .ok (some tsk) ∧
      tsk.destinationFile =
        destPath2 destRoot blockTo ((o.destinationFile <|> o.renameTo).getD nf)) ∧
    (∃ tsk : Task τ,
      parseObjSpec methodT sectionT bt blockPath blockTo destRoot exD
          { o with override := none } = .ok (some tsk) ∧
      tsk.destinationFile =
        destPath2 destRoot blockTo ((o.destinationFile <|> o.renameTo).getD nf) ∧
      ∀ (ls : List Log) (acts : List (Action τ)) (rg : Registries) (fs : List String),
        writeFilesM roots destRoot exT exD ctx reg
            ⟨some ⟨some sectionT, [("files", [⟨blockPath, none, some blockTo, none, bt, none,
              [.obj { o with override := none }]⟩])]⟩, none, none, methodT⟩ =
          (ls, acts, .ok (rg, fs)) →
        fs = [targetOf tsk]) := by
  have ha : parseObjSpec methodT sectionT bt blockPath blockTo destRoot exD o = .ok none := by
    simp [parseObjSpec, h1, h2, h3]
  refine ⟨ha, ?_, ?_, ?_⟩
  · rw [writeFilesM_single_obj roots destRoot exT exD ctx reg methodT sectionT bt
      blockPath blockTo o h4, ha]
    rfl
  · obtain ⟨tsk, hp, _, hd⟩ := parseObjSpec_not_skipped methodT sectionT bt blockPath blockTo
      destRoot exD { o with override := some true } nf h1 rfl
    exact ⟨tsk, hp, hd⟩
  · obtain ⟨tsk, hp, _, hd⟩ := parseObjSpec_not_skipped methodT sectionT bt blockPath blockTo
      destRoot exD { o with override := none } nf h1 rfl
    refine ⟨tsk, hp, hd, ?_⟩
    intro ls acts rg fs h
    rw [writeFilesM_single_obj roots destRoot exT exD ctx reg methodT sectionT bt
      blockPath blockTo { o with override := none } h4, hp] at h
    exact runTasks_singleton_ok roots exT ctx reg tsk h

/-- Witness for C6: `override: false` with existing destination
`d/out/a.txt` is skipped; with `override` unset the task is planned and
a successful run writes exactly `d/out/a.txt`. -/
theorem C6_skip_if_exists_witness :
    parseObjSpec (τ := Unit) [] [] (.fns []) "src" "out" "d" (fun s => s == "d/out/a.txt")
      ⟨some "a.txt", none, none, none, some false, .fns [], false, none, none⟩ = .ok none ∧
    writeFilesM (τ := Unit) ["r"] "d" (fun _ => true) (fun s => s == "d/out/a.txt")
      ⟨none, none, none⟩ ⟨[], []⟩
      ⟨some ⟨some [], [("files", [⟨"src", none, some "out", none, .fns [], none,
        [.obj ⟨some "a.txt", none, none, none, some false, .fns [], false, none, none⟩]⟩])]⟩,
        none, none, []⟩ = ([], [], .ok (⟨[], []⟩, [])) ∧
    (∃ tsk : Task Unit,
      parseObjSpec [] [] (.fns []) "src" "out" "d" (fun s => s == "d/out/a.txt")
          { (⟨some "a.txt", none, none, none, some false, .fns [], false, none, none⟩ :
            FileSpecObj Unit) with override := some true } = .ok (some tsk) ∧
      tsk.destinationFile = destPath2 "d" "out"
        ((((⟨some "a.txt", none, none, none, some false, .fns [], false, none, none⟩ :
          FileSpecObj Unit)).destinationFile <|> none).getD "a.txt")) ∧
    (∃ tsk : Task Unit,
      parseObjSpec [] [] (.fns []) "src" "out" "d" (fun s => s == "d/out/a.txt")
          { (⟨some "a.txt", none, none, none, some false, .fns [], false, none, none⟩ :
            FileSpecObj Unit) with override := none } = .ok (some tsk) ∧
      tsk.destinationFile = destPath2 "d" "out"
        ((((⟨some "a.txt", none, none, none, some false, .fns [], false, none, none⟩ :
          FileSpecObj Unit)).destinationFile <|> none).getD "a.txt") ∧
      ∀ (ls : List Log) (acts : List (Action Unit)) (rg : Registries) (fs : List String),
        writeFilesM ["r"] "d" (fun _ => true) (fun s => s == "d/out/a.txt")
            ⟨none, none, none⟩ ⟨[], []⟩
            ⟨some ⟨some [], [("files", [⟨"src", none, some "out", none, .fns [], none,
              [.obj { (⟨some "a.txt", none, none, none, some false, .fns [], false, none, none⟩ :
                FileSpecObj Unit) with override := none }]⟩])]⟩, none, none, []⟩ =
          (ls, acts, .ok (rg, fs)) →
        fs = [targetOf tsk]) :=
  C6_skip_if_exists [] [] (.fns []) "src" "out" "d" ["r"] (fun _ => true)
    (fun s => s == "d/out/a.txt") ⟨none, none, none⟩ ⟨[], []⟩
    ⟨some "a.txt", none, none, none, some false, .fns [], false, none, none⟩ "a.txt"
    rfl rfl (by decide) (by decide)

/-- **C3, counterexample**: the regex
`/(\r?\n)(\s*)\/\/ jhipster-needle-add-icon-import/g` requires a
newline before the sentinel, so a sentinel on the very first line of
the file is not rewritten at all (no import inserted); and the
replacement uses the single callback-supplied indent for every
occurrence, so an occurrence indented with four spaces is rewritten
with the two-space callback indent, not its own captured
indentation. -/
theorem C3_icon_needle_counterexample :
    addIconReplace "  ".data "faBan".data iconNeedle = iconNeedle ∧
    ¬ ("faBan".data <:+: iconNeedle) ∧
    addIconReplace "  ".data "faBan".data ('\n' :: ("    ".data ++ iconNeedle)) =
      ("\n  faBan,\n  ".data ++ iconNeedle) ∧
    ("\n  faBan,\n  ".data ++ iconNeedle) ≠ ("\n    faBan,\n    ".data ++ iconNeedle) := by
  refine ⟨?_, by decide, ?_, by decide⟩
  · simp [addIconReplace, iconNeedle]
  · rw [addIconReplace_step_LF "  ".data "faBan".data ("    ".data ++ iconNeedle) []
      (by decide)]
    simp only [addIconReplace]
    decide

/-- **C3, amended** (needle preservation and global match for the
icon-import injection): for every occurrence of the sentinel line that
is preceded by a newline (an occurrence on the first line of the file
is left untouched), the transform inserts
`indentPrefix ++ iconImport ++ ','` on a new line immediately before
the sentinel, rewrites the sentinel line with the same callback-supplied
`indentPrefix` (each occurrence's own captured indentation is
discarded, and `\r\n` is normalised to `\n`), and re-emits the sentinel
so the marker stays usable; the scan then continues on the rest of the
content, so every later occurrence is rewritten the same way (global
match). -/
theorem C3_icon_needle_injection (ip ii ws rest : List Char)
    (h : ∀ c ∈ ws, isJsWS c = true) :
    addIconReplace ip ii ('\n' :: (ws ++ iconNeedle ++ rest)) =
      iconRepl ip ii ++ addIconReplace ip ii rest ∧
    addIconReplace ip ii ('\r' :: '\n' :: (ws ++ iconNeedle ++ rest)) =
      iconRepl ip ii ++ addIconReplace ip ii rest ∧
    iconNeedle <:+: addIconReplace ip ii ('\n' :: (ws ++ iconNeedle ++ rest)) := by
  have hnt := needleTail_all_ws ws rest h
  have hLF := addIconReplace_step_LF ip ii (ws ++ iconNeedle ++ rest) rest hnt
  refine ⟨hLF, addIconReplace_step_CRLF ip ii (ws ++ iconNeedle ++ rest) rest hnt, ?_⟩
  rw [hLF]
  exact ⟨'\n' :: ip ++ ii ++ ',' :: '\n' :: ip, addIconReplace ip ii rest, by
    simp [iconRepl]⟩

/-- Witness for C3: a single-space indented occurrence followed by a
tail `z`, with callback indent two spaces and import `faX`. -/
theorem C3_icon_needle_injection_witness :
    ((∀ c ∈ [' '], isJsWS c = true) ∧
      addIconReplace "  ".data "faX".data ('\n' :: ([' '] ++ iconNeedle ++ "z".data)) =
        iconRepl "  ".data "faX".data ++ addIconReplace "  ".data "faX".data "z".data ∧
      iconNeedle <:+:
        addIconReplace "  ".data "faX".data ('\n' :: ([' '] ++ iconNeedle ++ "z".data))) :=
  ⟨by decide,
    (C3_icon_needle_injection "  ".data "faX".data [' '] "z".data (by decide)).1,
    (C3_icon_needle_injection "  ".data "faX".data [' '] "z".data (by decide)).2.2⟩

/-! ## Lemmas about the lodash word machine -/

theorem uniTokenLen_pos {c : Char} (t : List Char) (h : isAlnumC c = true) :
    uniTokenLen (c :: t) ≠ 0 := by
  simp only [uniTokenLen]
  by_cases hl : isLowerAZ c = true
  · simp only [hl, if_true]
    omega
  · rw [Bool.not_eq_true] at hl
    by_cases hu : isUpperAZ c = true
    · simp only [hl, hu, Bool.false_eq_true, if_false, if_true]
      cases hd : t.drop (1 + (t.takeWhile isUpperAZ).length - 1) with
      | nil => simp only [hd]; omega
      | cons d t2 =>
        simp only [hd]
        by_cases hld : isLowerAZ d = true
        · simp only [hld, if_true]
          by_cases hk : 1 + (t.takeWhile isUpperAZ).length = 1
          · simp only [hk, if_true]
            omega
          · simp only [hk, if_false]
            omega
        · rw [Bool.not_eq_true] at hld
          simp only [hld, Bool.false_eq_true, if_false]
          omega
    · rw [Bool.not_eq_true] at hu
      have hdg : isDigitC c = true := by
        simp only [isAlnumC, isLetterAZ, hl, hu, Bool.or_false, Bool.false_or] at h
        exact h
      simp only [hl, hu, hdg, Bool.false_eq_true, if_false, if_true]
      omega

theorem uniWords_eq_skip {head : Char} {t : List Char} (h0 : uniTokenLen (head :: t) = 0) :
    uniWords (head :: t) = uniWords t := by
  rw [uniWords.eq_def]
  split
  · rfl
  · rename_i n hn
    rw [h0] at hn
    exact Nat.noConfusion hn

theorem uniWords_eq_take {x : List Char} {n : Nat} (hx : uniTokenLen x = n + 1) :
    uniWords x = x.take (n + 1) :: uniWords (x.drop (n + 1)) := by
  rw [uniWords.eq_def]
  split
  · rename_i h0
    rw [hx] at h0
    exact Nat.noConfusion h0
  · rename_i m hm
    rw [hx] at hm
    injection hm with hmm
    rw [hmm]

theorem uniWords_nil : uniWords [] = [] := by
  rw [uniWords.eq_def]
  rfl

theorem uniWords_ne_nil : ∀ l : List Char, (∃ c ∈ l, isAlnumC c = true) → uniWords l ≠ [] := by
  intro l
  induction l using uniWords.induct with
  | case1 _ _ =>
    intro h
    obtain ⟨c, hc, _⟩ := h
    cases hc
  | case2 head t h0 _ ih =>
    intro h
    obtain ⟨c, hc, hal⟩ := h
    rw [uniWords_eq_skip h0]
    rcases List.mem_cons.mp hc with rfl | hct
    · exact absurd h0 (uniTokenLen_pos t hal)
    · exact ih ⟨c, hct, hal⟩
  | case3 x n hx _ =>
    intro _
    rw [uniWords_eq_take hx]
    exact List.cons_ne_nil _ _

theorem uniWords_forall_ne_nil : ∀ l : List Char, ∀ w ∈ uniWords l, w ≠ [] := by
  intro l
  induction l using uniWords.induct with
  | case1 _ _ =>
    rw [uniWords_nil]
    intro w hw
    cases hw
  | case2 head t h0 _ ih =>
    rw [uniWords_eq_skip h0]
    exact ih
  | case3 x n hx ih =>
    rw [uniWords_eq_take hx]
    intro w hw
    rcases List.mem_cons.mp hw with rfl | hw2
    · have hx0 : x ≠ [] := by
        intro he
        rw [he, uniTokenLen_nil] at hx
        exact Nat.noConfusion hx
      cases x with
      | nil => exact absurd rfl hx0
      | cons a y => simp [List.take_cons]
    · exact ih w hw2

theorem alnum_asciiWordChar {c : Char} (h : isAlnumC c = true) : asciiWordChar c = true := by
  simp only [isAlnumC, isLetterAZ, isLowerAZ, isUpperAZ, isDigitC,
    Bool.or_eq_true, Bool.and_eq_true, decide_eq_true_eq] at h
  simp only [asciiWordChar, Bool.not_eq_true']
  rw [Bool.eq_false_iff]
  intro hcontra
  simp only [Bool.or_eq_true, Bool.and_eq_true, decide_eq_true_eq] at hcontra
  omega

theorem asciiWords_eq_cons {c : Char} {t : List Char} (h : asciiWordChar c = true) :
    asciiWords (c :: t) =
      (c :: t.takeWhile asciiWordChar) :: asciiWords (t.dropWhile asciiWordChar) := by
  rw [asciiWords.eq_def]
  simp only [h, if_true]

theorem asciiWords_eq_skip {c : Char} {t : List Char} (h : asciiWordChar c = false) :
    asciiWords (c :: t) = asciiWords t := by
  rw [asciiWords.eq_def]
  simp only [h, Bool.false_eq_true, if_false]

theorem asciiWords_ne_nil : ∀ l : List Char, (∃ c ∈ l, isAlnumC c = true) →
    asciiWords l ≠ [] := by
  intro l
  induction l using asciiWords.induct with
  | case1 =>
    intro h
    obtain ⟨c, hc, _⟩ := h
    cases hc
  | case2 c t hc _ =>
    intro _
    rw [asciiWords_eq_cons hc]
    exact List.cons_ne_nil _ _
  | case3 c t hc ih =>
    intro h
    obtain ⟨d, hd, hal⟩ := h
    rw [asciiWords_eq_skip (Bool.not_eq_true _ ▸ hc)]
    rcases List.mem_cons.mp hd with rfl | hdt
    · exact absurd (alnum_asciiWordChar hal) hc
    · exact ih ⟨d, hdt, hal⟩

theorem asciiWords_forall_ne_nil : ∀ l : List Char, ∀ w ∈ asciiWords l, w ≠ [] := by
  intro l
  induction l using asciiWords.induct with
  | case1 =>
    intro w hw
    rw [show asciiWords [] = [] from by rw [asciiWords.eq_def]] at hw
    cases hw
  | case2 c t hc ih =>
    rw [asciiWords_eq_cons hc]
    intro w hw
    rcases List.mem_cons.mp hw with rfl | hw2
    · exact List.cons_ne_nil _ _
    · exact ih w hw2
  | case3 c t hc ih =>
    rw [asciiWords_eq_skip (Bool.not_eq_true _ ▸ hc)]
    exact ih

theorem lodashWords_ne_nil (l : List Char) (h : ∃ c ∈ l, isAlnumC c = true) :
    lodashWords l ≠ [] := by
  unfold lodashWords
  split
  · exact uniWords_ne_nil l h
  · exact asciiWords_ne_nil l h

theorem lodashWords_forall_ne_nil (l : List Char) : ∀ w ∈ lodashWords l, w ≠ [] := by
  unfold lodashWords
  split
  · exact uniWords_forall_ne_nil l
  · exact asciiWords_forall_ne_nil l

theorem camelCaseL_ne_nil (l : List Char) (h : ∃ c ∈ l, isAlnumC c = true) :
    camelCaseL l ≠ [] := by
  unfold camelCaseL
  cases hw : lodashWords l with
  | nil => exact absurd hw (lodashWords_ne_nil l h)
  | cons w ws =>
    have hwne : w ≠ [] := lodashWords_forall_ne_nil l w (hw ▸ List.mem_cons_self w ws)
    cases w with
    | nil => exact absurd rfl hwne
    | cons a y => exact List.cons_ne_nil _ _

/-- **C10** (`getFrontendAppName` never starts with a digit): the
result is the camel-cased base name suffixed with `App` (suffix omitted
when the base name already ends in `App`), except that a candidate
starting with a digit degrades to the literal `App`; consequently the
result is nonempty and never begins with a digit. -/
theorem C10_frontend_app_name (b : List Char) :
    (getFrontendAppName b = appSuffix ∨
      getFrontendAppName b =
        camelCaseL b ++ (if appSuffix.isSuffixOf b then [] else appSuffix)) ∧
    getFrontendAppName b ≠ [] ∧
    (∀ c t, getFrontendAppName b = c :: t → isDigitC c = false) := by
  have hmain : getFrontendAppName b =
      (if (match (camelCaseL b ++ (if appSuffix.isSuffixOf b then [] else appSuffix)) with
          | c :: _ => isDigitC c
          | [] => false) = true then appSuffix
       else camelCaseL b ++ (if appSuffix.isSuffixOf b then [] else appSuffix)) := by
    simp only [getFrontendAppName]
  by_cases hd : (match (camelCaseL b ++ (if appSuffix.isSuffixOf b then [] else appSuffix)) with
      | c :: _ => isDigitC c
      | [] => false) = true
  · rw [hmain, if_pos hd]
    refine ⟨Or.inl rfl, List.cons_ne_nil _ _, ?_⟩
    intro c t he
    injection he with h1 _
    rw [← h1]
    rfl
  · rw [hmain, if_neg hd]
    refine ⟨Or.inr rfl, ?_, ?_⟩
    · cases hsuf : appSuffix.isSuffixOf b with
      | false =>
        simp only [hsuf, Bool.false_eq_true, if_false]
        intro hcontra
        exact absurd (List.append_eq_nil.mp hcontra).2 (by decide)
      | true =>
        simp only [hsuf, if_true, List.append_nil]
        obtain ⟨s, hs⟩ := List.isSuffixOf_iff_suffix.mp hsuf
        refine camelCaseL_ne_nil b ⟨'p', ?_, by decide⟩
        rw [← hs]
        exact List.mem_append.mpr (Or.inr (by decide))
    · intro c t he
      rw [he] at hd
      simpa using hd

/-- Witness for C10: the empty base name yields the literal `App`,
which is nonempty and starts with a non-digit. -/
theorem C10_frontend_app_name_witness :
    getFrontendAppName [] ≠ [] ∧ isDigitC 'A' = false := by
  have h0 : camelCaseL [] = [] := by
    unfold camelCaseL lodashWords
    rw [show hasUnicodeWord [] = false from rfl]
    simp only [Bool.false_eq_true, if_false]
    rw [show asciiWords [] = [] from by rw [asciiWords.eq_def]]
  have h1 : getFrontendAppName [] = 'A' :: ['p', 'p'] := by
    simp [getFrontendAppName, h0, appSuffix]
  exact ⟨(C10_frontend_app_name []).2.1,
    (C10_frontend_app_name []).2.2 'A' ['p', 'p'] h1⟩

/-! ## Character-class arithmetic for the lodash proofs -/

theorem isLowerAZ_iff {c : Char} : isLowerAZ c = true ↔ 97 ≤ c.toNat ∧ c.toNat ≤ 122 := by
  simp [isLowerAZ]

theorem isUpperAZ_iff {c : Char} : isUpperAZ c = true ↔ 65 ≤ c.toNat ∧ c.toNat ≤ 90 := by
  simp [isUpperAZ]

theorem lower_not_upper {c : Char} (h : isLowerAZ c = true) : isUpperAZ c = false := by
  rw [Bool.eq_false_iff]
  intro hu
  rw [isLowerAZ_iff] at h
  rw [isUpperAZ_iff] at hu
  omega

theorem lower_not_digit {c : Char} (h : isLowerAZ c = true) : isDigitC c = false := by
  rw [Bool.eq_false_iff]
  intro hu
  rw [isLowerAZ_iff] at h
  simp only [isDigitC, Bool.and_eq_true, decide_eq_true_eq] at hu
  omega

theorem upper_not_lower {c : Char} (h : isUpperAZ c = true) : isLowerAZ c = false := by
  rw [Bool.eq_false_iff]
  intro hu
  rw [isUpperAZ_iff] at h
  rw [isLowerAZ_iff] at hu
  omega

theorem upper_not_digit {c : Char} (h : isUpperAZ c = true) : isDigitC c = false := by
  rw [Bool.eq_false_iff]
  intro hu
  rw [isUpperAZ_iff] at h
  simp only [isDigitC, Bool.and_eq_true, decide_eq_true_eq] at hu
  omega

theorem toUpperC_toNat {c : Char} (h : isLowerAZ c = true) :
    (toUpperC c).toNat = c.toNat - 32 := by
  rw [isLowerAZ_iff] at h
  rw [toUpperC, if_pos (isLowerAZ_iff.mpr h), Char.ofNat, dif_pos]
  · rfl
  · unfold Nat.isValidChar
    omega

theorem upper_toUpperC {c : Char} (h : isLowerAZ c = true) :
    isUpperAZ (toUpperC c) = true := by
  rw [isUpperAZ_iff, toUpperC_toNat h]
  rw [isLowerAZ_iff] at h
  omega

theorem toLowerC_of_lower {c : Char} (h : isLowerAZ c = true) : toLowerC c = c := by
  rw [toLowerC, if_neg]
  rw [lower_not_upper h]
  simp

theorem toLowerC_toUpperC {c : Char} (h : isLowerAZ c = true) :
    toLowerC (toUpperC c) = c := by
  rw [toLowerC, if_pos (upper_toUpperC h), toUpperC_toNat h]
  have hr : c.toNat - 32 + 32 = c.toNat := by
    rw [isLowerAZ_iff] at h
    omega
  rw [hr, Char.ofNat_toNat]

theorem lowerL_of_lower {w : List Char} (h : ∀ c ∈ w, isLowerAZ c = true) :
    lowerL w = w := by
  induction w with
  | nil => rfl
  | cons c t ih =>
    simp only [lowerL, List.map_cons]
    rw [toLowerC_of_lower (h c (List.mem_cons_self c t))]
    have := ih (fun d hd => h d (List.mem_cons_of_mem c hd))
    simp only [lowerL] at this
    rw [this]

theorem lowerL_capWord {w : List Char} (h : ∀ c ∈ w, isLowerAZ c = true) :
    lowerL (capWord w) = w := by
  rw [capWord, lowerL_of_lower h]
  cases w with
  | nil => rfl
  | cons c t =>
    simp only [upperFirstL, lowerL, List.map_cons]
    rw [toLowerC_toUpperC (h c (List.mem_cons_self c t))]
    have := lowerL_of_lower (fun d hd => h d (List.mem_cons_of_mem c hd))
    simp only [lowerL] at this
    rw [this]

theorem capWord_capWord {w : List Char} (h : ∀ c ∈ w, isLowerAZ c = true) :
    capWord (capWord w) = capWord w := by
  conv_lhs => rw [capWord, lowerL_capWord h]
  rw [capWord, lowerL_of_lower h]

/-! ## takeWhile / dropWhile helpers -/

theorem takeWhile_all {α : Type} {p : α → Bool} :
    ∀ {l : List α}, (∀ c ∈ l, p c = true) → l.takeWhile p = l
  | [], _ => rfl
  | c :: t, h => by
    rw [List.takeWhile_cons, if_pos (h c (List.mem_cons_self c t))]
    rw [takeWhile_all (fun d hd => h d (List.mem_cons_of_mem c hd))]

theorem dropWhile_all {α : Type} {p : α → Bool} :
    ∀ {l : List α}, (∀ c ∈ l, p c = true) → l.dropWhile p = []
  | [], _ => rfl
  | c :: t, h => by
    rw [List.dropWhile_cons, if_pos (h c (List.mem_cons_self c t))]
    exact dropWhile_all (fun d hd => h d (List.mem_cons_of_mem c hd))

theorem takeWhile_append_stop {α : Type} {p : α → Bool} {x : α} (hx : p x = false) :
    ∀ {w : List α}, (∀ c ∈ w, p c = true) → ∀ r : List α,
      ((w ++ x :: r).takeWhile p = w ∧ (w ++ x :: r).dropWhile p = x :: r)
  | [], _, r => by
    simp only [List.nil_append, List.takeWhile_cons, List.dropWhile_cons, hx]
    simp
  | c :: t, h, r => by
    simp only [List.cons_append, List.takeWhile_cons, List.dropWhile_cons,
      h c (List.mem_cons_self c t), if_true]
    have := takeWhile_append_stop hx (fun d hd => h d (List.mem_cons_of_mem c hd)) r
    rw [this.1, this.2]
    exact ⟨rfl, rfl⟩

/-! ## `hasUnicodeWord` shape lemmas -/

theorem hasUnicodeWord_false_of :
    ∀ l : List Char, (∀ c ∈ l, isLowerAZ c = true ∨ c = ' ') →
      hasUnicodeWord l = false := by
  intro l
  induction l with
  | nil => intro _; rfl
  | cons c t ih =>
    intro h
    have hc := h c (List.mem_cons_self c t)
    have ht : ∀ d ∈ t, isLowerAZ d = true ∨ d = ' ' :=
      fun d hd => h d (List.mem_cons_of_mem c hd)
    have hcu : isUpperAZ c = false := by
      rcases hc with h1 | h1
      · exact lower_not_upper h1
      · subst h1; rfl
    have hcd : isDigitC c = false := by
      rcases hc with h1 | h1
      · exact lower_not_digit h1
      · subst h1; rfl
    simp only [hasUnicodeWord]
    rw [Bool.or_eq_false_iff, Bool.or_eq_false_iff]
    refine ⟨⟨?_, ?_⟩, ih ht⟩
    · rcases hc with h1 | h1
      · simp [isAlnumC, isLetterAZ, h1]
      · subst h1; simp
    · cases t with
      | nil => rfl
      | cons d t2 =>
        have hd := ht d (List.mem_cons_self d t2)
        have hdu : isUpperAZ d = false := by
          rcases hd with h1 | h1
          · exact lower_not_upper h1
          · subst h1; rfl
        have hdd : isDigitC d = false := by
          rcases hd with h1 | h1
          · exact lower_not_digit h1
          · subst h1; rfl
        simp only [hdu, hdd, hcd, hcu, Bool.and_false, Bool.false_and,
          Bool.and_self, Bool.or_self, Bool.or_false, Bool.false_or]

theorem hasUnicode_upper_lowers {X : Char} {ls : List Char} (hX : isUpperAZ X = true)
    (hls : ∀ c ∈ ls, isLowerAZ c = true) : hasUnicodeWord (X :: ls) = false := by
  have hXl : isLowerAZ X = false := upper_not_lower hX
  have hXd : isDigitC X = false := upper_not_digit hX
  simp only [hasUnicodeWord]
  rw [Bool.or_eq_false_iff, Bool.or_eq_false_iff]
  refine ⟨⟨?_, ?_⟩, hasUnicodeWord_false_of ls (fun c hc => Or.inl (hls c hc))⟩
  · simp [isAlnumC, isLetterAZ, hX]
  · cases ls with
    | nil => rfl
    | cons d t2 =>
      have hd := hls d (List.mem_cons_self d t2)
      have hdu : isUpperAZ d = false := lower_not_upper hd
      have hdd : isDigitC d = false := lower_not_digit hd
      simp only [hXl, hXd, hdu, hdd, hX, Bool.and_false, Bool.false_and,
        Bool.true_and, Bool.or_self, Bool.or_false, Bool.false_or]

theorem hasUnicode_of_lower_upper :
    ∀ (pre : List Char) (a b : Char) (post : List Char), isLowerAZ a = true →
      isUpperAZ b = true → hasUnicodeWord (pre ++ a :: b :: post) = true := by
  intro pre a b post ha hb
  induction pre with
  | nil => simp [hasUnicodeWord, ha, hb]
  | cons c pt ih =>
    simp only [List.cons_append, hasUnicodeWord, List.append_eq]
    rw [ih]
    simp

/-! ## Word-split computations for lowercase inputs and their
capitalised images -/

theorem asciiWords_nil : asciiWords [] = [] := by rw [asciiWords.eq_def]

theorem asciiWords_single {w : List Char} (hne : w ≠ [])
    (h : ∀ c ∈ w, asciiWordChar c = true) : asciiWords w = [w] := by
  cases w with
  | nil => exact absurd rfl hne
  | cons c t =>
    rw [asciiWords_eq_cons (h c (List.mem_cons_self c t))]
    rw [takeWhile_all (fun d hd => h d (List.mem_cons_of_mem c hd))]
    rw [dropWhile_all (fun d hd => h d (List.mem_cons_of_mem c hd))]
    rw [asciiWords_nil]

theorem asciiWords_joinSpaces :
    ∀ ws : List (List Char), (∀ w ∈ ws, w ≠ [] ∧ ∀ c ∈ w, asciiWordChar c = true) →
      asciiWords (joinSpaces ws) = ws
  | [], _ => by rw [show joinSpaces [] = [] from rfl, asciiWords_nil]
  | [w], h => by
    rw [show joinSpaces [w] = w from rfl]
    exact asciiWords_single (h w (by simp)).1 (h w (by simp)).2
  | w :: w2 :: ws, h => by
    rw [show joinSpaces (w :: w2 :: ws) = w ++ ' ' :: joinSpaces (w2 :: ws) from rfl]
    obtain ⟨hne, hwc⟩ := h w (List.mem_cons_self _ _)
    have hrest : ∀ v ∈ w2 :: ws, v ≠ [] ∧ ∀ c ∈ v, asciiWordChar c = true :=
      fun v hv => h v (List.mem_cons_of_mem _ hv)
    cases w with
    | nil => exact absurd rfl hne
    | cons c t =>
      have hsp : asciiWordChar ' ' = false := by decide
      rw [List.cons_append, asciiWords_eq_cons (hwc c (List.mem_cons_self c t))]
      have hts := takeWhile_append_stop hsp
        (fun d hd => hwc d (List.mem_cons_of_mem c hd)) (joinSpaces (w2 :: ws))
      rw [hts.1, hts.2, asciiWords_eq_skip hsp]
      rw [asciiWords_joinSpaces (w2 :: ws) hrest]

/-- The length of the word the unicode machine matches at the head of
`capWord w ++ T'` when `w` is a lowercase word of length at least two
and `T'` is empty or starts with a capital: exactly `capWord w`. -/
theorem uniTokenLen_capWord_append {c : Char} {w' T' : List Char}
    (hc : isLowerAZ c = true) (hw' : ∀ d ∈ w', isLowerAZ d = true) (hw'ne : w' ≠ [])
    (hT' : T' = [] ∨ ∃ Y r2, T' = Y :: r2 ∧ isUpperAZ Y = true) :
    uniTokenLen (toUpperC c :: (w' ++ T')) = 1 + w'.length := by
  have hXu : isUpperAZ (toUpperC c) = true := upper_toUpperC hc
  have hXl : isLowerAZ (toUpperC c) = false := upper_not_lower hXu
  have htwl : List.takeWhile isLowerAZ (w' ++ T') = w' := by
    rcases hT' with rfl | ⟨Y, r2, rfl, hY⟩
    · rw [List.append_nil]
      exact takeWhile_all hw'
    · exact (takeWhile_append_stop (upper_not_lower hY) hw' r2).1
  cases w' with
  | nil => exact absurd rfl hw'ne
  | cons d t =>
    have hd := hw' d (List.mem_cons_self d t)
    have htwu : List.takeWhile isUpperAZ (d :: (t ++ T')) = [] := by
      rw [List.takeWhile_cons, lower_not_upper hd]
      simp
    have htwl' : List.takeWhile isLowerAZ (d :: (t ++ T')) = d :: t := by
      rwa [List.cons_append] at htwl
    simp only [uniTokenLen, List.cons_append, hXl, hXu, Bool.false_eq_true, if_false,
      if_true]
    rw [htwu]
    simp only [List.length_nil, Nat.add_zero, Nat.sub_self, List.drop_zero]
    simp only [hd, if_true, if_pos rfl]
    rw [htwl']

/-- `capWord` of a lowercase word just capitalises its first letter. -/
theorem capWord_lower {c : Char} {w' : List Char}
    (h : ∀ d ∈ c :: w', isLowerAZ d = true) :
    capWord (c :: w') = toUpperC c :: w' := by
  simp only [capWord, lowerL_of_lower h, upperFirstL]

/-- The unicode word machine splits a concatenation of capitalised
lowercase words (each of length at least two) back into exactly those
words. -/
theorem uniWords_capJoin :
    ∀ ws : List (List Char), (∀ w ∈ ws, 2 ≤ w.length ∧ ∀ c ∈ w, isLowerAZ c = true) →
      uniWords ((ws.map capWord).flatten) = ws.map capWord
  | [], _ => by simp [uniWords_nil]
  | w :: rest, h => by
    obtain ⟨hlen, hlow⟩ := h w (List.mem_cons_self _ _)
    have hrest : ∀ v ∈ rest, 2 ≤ v.length ∧ ∀ c ∈ v, isLowerAZ c = true :=
      fun v hv => h v (List.mem_cons_of_mem _ hv)
    cases w with
    | nil => simp at hlen
    | cons c w' =>
      have hc := hlow c (List.mem_cons_self _ _)
      have hw' : ∀ d ∈ w', isLowerAZ d = true :=
        fun d hd => hlow d (List.mem_cons_of_mem _ hd)
      have hw'ne : w' ≠ [] := by
        intro he
        rw [he] at hlen
        simp at hlen
      have hT' : ((rest.map capWord).flatten = []) ∨
          ∃ Y r2, (rest.map capWord).flatten = Y :: r2 ∧ isUpperAZ Y = true := by
        cases rest with
        | nil => exact Or.inl rfl
        | cons v vs =>
          obtain ⟨hvlen, hvlow⟩ := hrest v (List.mem_cons_self _ _)
          cases v with
          | nil => simp at hvlen
          | cons cv v' =>
            refine Or.inr ⟨toUpperC cv, v' ++ (vs.map capWord).flatten, ?_,
              upper_toUpperC (hvlow cv (List.mem_cons_self _ _))⟩
            simp [capWord_lower hvlow]
      simp only [List.map_cons, List.flatten_cons, capWord_lower hlow, List.cons_append]
      have htok : uniTokenLen (toUpperC c :: (w' ++ (rest.map capWord).flatten)) =
          w'.length + 1 := by
        rw [uniTokenLen_capWord_append hc hw' hw'ne hT']
        omega
      rw [uniWords_eq_take htok]
      rw [List.take_succ_cons, List.drop_succ_cons, List.take_left, List.drop_left]
      rw [uniWords_capJoin rest hrest]

theorem lower_alnum {c : Char} (h : isLowerAZ c = true) : isAlnumC c = true := by
  simp [isAlnumC, isLetterAZ, h]

theorem upper_alnum {c : Char} (h : isUpperAZ c = true) : isAlnumC c = true := by
  simp [isAlnumC, isLetterAZ, h]

theorem joinSpaces_chars :
    ∀ ws : List (List Char), (∀ w ∈ ws, ∀ c ∈ w, isLowerAZ c = true) →
      ∀ c ∈ joinSpaces ws, isLowerAZ c = true ∨ c = ' '
  | [], _ => by intro c hc; cases hc
  | [w], h => by
    intro c hc
    exact Or.inl (h w (by simp) c hc)
  | w :: w2 :: ws, h => by
    intro c hc
    rw [show joinSpaces (w :: w2 :: ws) = w ++ ' ' :: joinSpaces (w2 :: ws) from rfl] at hc
    rcases List.mem_append.mp hc with hcw | hcr
    · exact Or.inl (h w (List.mem_cons_self _ _) c hcw)
    · rcases List.mem_cons.mp hcr with rfl | hcr2
      · exact Or.inr rfl
      · exact joinSpaces_chars (w2 :: ws) (fun v hv => h v (List.mem_cons_of_mem _ hv)) c hcr2

theorem upperFirstCamelCase_nil : upperFirstCamelCase [] = [] := by
  unfold upperFirstCamelCase camelCaseL lodashWords
  rw [show hasUnicodeWord [] = false from rfl]
  simp only [Bool.false_eq_true, if_false]
  rw [asciiWords_nil]
  rfl

theorem camelCaseL_of_words {l w : List Char} {ws : List (List Char)}
    (hw : lodashWords l = w :: ws) :
    camelCaseL l = lowerL w ++ (ws.map capWord).flatten := by
  unfold camelCaseL
  rw [hw]

/-- On a space-separated sequence of lowercase words (each at least two
letters), `upperFirstCamelCase` produces the concatenation of the
capitalised words. -/
theorem upperFirstCamelCase_joinSpaces (ws : List (List Char))
    (h : ∀ w ∈ ws, 2 ≤ w.length ∧ ∀ c ∈ w, isLowerAZ c = true) :
    upperFirstCamelCase (joinSpaces ws) = (ws.map capWord).flatten := by
  cases ws with
  | nil => rw [show joinSpaces [] = [] from rfl, upperFirstCamelCase_nil]; rfl
  | cons w rest =>
    have hlow : ∀ v ∈ w :: rest, ∀ c ∈ v, isLowerAZ c = true :=
      fun v hv => (h v hv).2
    have hwordy : ∀ v ∈ w :: rest, v ≠ [] ∧ ∀ c ∈ v, asciiWordChar c = true := by
      intro v hv
      refine ⟨?_, fun c hc => alnum_asciiWordChar (lower_alnum ((h v hv).2 c hc))⟩
      intro he
      have := (h v hv).1
      rw [he] at this
      simp at this
    have hwords : lodashWords (joinSpaces (w :: rest)) = w :: rest := by
      unfold lodashWords
      rw [hasUnicodeWord_false_of _ (joinSpaces_chars _ hlow)]
      simp only [Bool.false_eq_true, if_false]
      exact asciiWords_joinSpaces _ hwordy
    obtain ⟨hlen, hl⟩ := h w (List.mem_cons_self _ _)
    cases w with
    | nil => simp at hlen
    | cons c w' =>
      unfold upperFirstCamelCase
      rw [camelCaseL_of_words hwords, lowerL_of_lower hl, List.cons_append]
      simp only [upperFirstL]
      rw [List.map_cons, List.flatten_cons, capWord_lower hl, List.cons_append]

/-- The image of `upperFirstCamelCase` on such inputs is a fixed
point. -/
theorem upperFirstCamelCase_capJoin_fix (ws : List (List Char))
    (h : ∀ w ∈ ws, 2 ≤ w.length ∧ ∀ c ∈ w, isLowerAZ c = true) :
    upperFirstCamelCase ((ws.map capWord).flatten) = (ws.map capWord).flatten := by
  cases ws with
  | nil => simpa using upperFirstCamelCase_nil
  | cons w rest =>
    obtain ⟨hlen, hl⟩ := h w (List.mem_cons_self _ _)
    have hrest : ∀ v ∈ rest, 2 ≤ v.length ∧ ∀ c ∈ v, isLowerAZ c = true :=
      fun v hv => h v (List.mem_cons_of_mem _ hv)
    cases w with
    | nil => simp at hlen
    | cons c w' =>
      have hc := hl c (List.mem_cons_self _ _)
      have hw' : ∀ d ∈ w', isLowerAZ d = true :=
        fun d hd => hl d (List.mem_cons_of_mem _ hd)
      have hw'ne : w' ≠ [] := by
        intro he
        rw [he] at hlen
        simp at hlen
      cases rest with
      | nil =>
        -- single word: ascii branch
        have hXu : isUpperAZ (toUpperC c) = true := upper_toUpperC hc
        have hwords : lodashWords (((([(c :: w')]).map capWord).flatten)) =
            capWord (c :: w') :: [] := by
          unfold lodashWords
          simp only [List.map_cons, List.map_nil, List.flatten_cons, List.flatten_nil,
            List.append_nil]
          rw [capWord_lower hl, hasUnicode_upper_lowers hXu hw']
          simp only [Bool.false_eq_true, if_false]
          rw [asciiWords_single (List.cons_ne_nil _ _) ?wc]
          case wc =>
            intro d hd
            rcases List.mem_cons.mp hd with rfl | hd2
            · exact alnum_asciiWordChar (upper_alnum hXu)
            · exact alnum_asciiWordChar (lower_alnum (hw' d hd2))
        unfold upperFirstCamelCase
        rw [camelCaseL_of_words hwords, lowerL_capWord hl]
        simp only [List.map_nil, List.flatten_nil, List.append_nil, List.map_cons,
          List.flatten_cons]
        rw [capWord_lower hl]
        simp [upperFirstL]
      | cons w2 rest2 =>
        -- at least two words: unicode branch
        obtain ⟨hlen2, hl2⟩ := hrest w2 (List.mem_cons_self _ _)
        cases w2 with
        | nil => simp at hlen2
        | cons c2 w2' =>
          have hc2 := hl2 c2 (List.mem_cons_self _ _)
          have huni : hasUnicodeWord
              ((((c :: w') :: (c2 :: w2') :: rest2).map capWord).flatten) = true := by
            have hdecomp : ((((c :: w') :: (c2 :: w2') :: rest2).map capWord).flatten) =
                (toUpperC c :: w'.dropLast) ++ (w'.getLast hw'ne) :: toUpperC c2 ::
                  (w2' ++ ((rest2.map capWord).flatten)) := by
              simp only [List.map_cons, List.flatten_cons, capWord_lower hl,
                capWord_lower hl2]
              conv_lhs => rw [← List.dropLast_append_getLast hw'ne]
              simp [List.append_assoc]
            rw [hdecomp]
            exact hasUnicode_of_lower_upper _ _ _ _
              (hw' _ (List.getLast_mem hw'ne)) (upper_toUpperC hc2)
          have hwords : lodashWords ((((c :: w') :: (c2 :: w2') :: rest2).map capWord).flatten) =
              capWord (c :: w') :: ((c2 :: w2') :: rest2).map capWord := by
            unfold lodashWords
            rw [huni]
            simp only [if_true]
            rw [uniWords_capJoin _ h]
            rfl
          have hmapfix : List.map capWord (((c2 :: w2') :: rest2).map capWord) =
              ((c2 :: w2') :: rest2).map capWord := by
            rw [List.map_map]
            exact List.map_congr_left (fun v hv => capWord_capWord (hrest v hv).2)
          unfold upperFirstCamelCase
          rw [camelCaseL_of_words hwords, lowerL_capWord hl, hmapfix, List.cons_append]
          simp only [upperFirstL]
          conv_rhs => rw [List.map_cons, List.flatten_cons, capWord_lower hl,
            List.cons_append]

/-- **C9, counterexample**: `upperFirstCamelCase` is not idempotent:
`'aB'` camel-cases to `'aB'` and upper-firsts to `'AB'`, but a second
application splits `'AB'` as a single acronym word and yields `'Ab'`. -/
theorem C9_upper_first_camel_case_counterexample :
    upperFirstCamelCase (upperFirstCamelCase ['a', 'B']) ≠ upperFirstCamelCase ['a', 'B'] := by
  have hu1 : uniWords ['a', 'B'] = [['a'], ['B']] := by
    rw [uniWords_eq_take (show uniTokenLen ['a', 'B'] = 0 + 1 from by decide)]
    rw [show List.take (0 + 1) ['a', 'B'] = ['a'] from rfl,
        show List.drop (0 + 1) ['a', 'B'] = ['B'] from rfl]
    rw [uniWords_eq_take (show uniTokenLen ['B'] = 0 + 1 from by decide)]
    rw [show List.take (0 + 1) ['B'] = ['B'] from rfl,
        show List.drop (0 + 1) ['B'] = ([] : List Char) from rfl]
    rw [uniWords_nil]
  have h1 : upperFirstCamelCase ['a', 'B'] = ['A', 'B'] := by
    have hwords : lodashWords ['a', 'B'] = ['a'] :: [['B']] := by
      unfold lodashWords
      rw [show hasUnicodeWord ['a', 'B'] = true from by decide]
      simp only [if_true]
      exact hu1
    unfold upperFirstCamelCase
    rw [camelCaseL_of_words hwords]
    decide
  have h2 : upperFirstCamelCase ['A', 'B'] = ['A', 'b'] := by
    have hwords : lodashWords ['A', 'B'] = ['A', 'B'] :: [] := by
      unfold lodashWords
      rw [show hasUnicodeWord ['A', 'B'] = false from by decide]
      simp only [Bool.false_eq_true, if_false]
      exact asciiWords_single (by decide) (by decide)
    unfold upperFirstCamelCase
    rw [camelCaseL_of_words hwords]
    decide
  rw [h1, h2]
  decide

/-- **C9, amended** (idempotence of `upperFirstCamelCase` on a
restricted class): applying `upperFirstCamelCase` twice equals applying
it once on every input made of space-separated lowercase words of at
least two letters each (on arbitrary input a second application can
differ, as with `'aB'`). -/
theorem C9_upper_first_camel_case (ws : List (List Char))
    (h : ∀ w ∈ ws, 2 ≤ w.length ∧ ∀ c ∈ w, isLowerAZ c = true) :
    upperFirstCamelCase (upperFirstCamelCase (joinSpaces ws)) =
      upperFirstCamelCase (joinSpaces ws) := by
  rw [upperFirstCamelCase_joinSpaces ws h, upperFirstCamelCase_capJoin_fix ws h]

/-- Witness for C9: `'ab cd'` (two two-letter lowercase words). -/
theorem C9_upper_first_camel_case_witness :
    upperFirstCamelCase (upperFirstCamelCase (joinSpaces [['a', 'b'], ['c', 'd']])) =
      upperFirstCamelCase (joinSpaces [['a', 'b'], ['c', 'd']]) :=
  C9_upper_first_camel_case [['a', 'b'], ['c', 'd']] (by decide)

end JH
